import Mathlib

/-!
Verification development for the Dual-Tree Boruvka Euclidean Minimum
Spanning Tree engine of mlpack (`src/mlpack/methods/emst/dtb.hpp`).

The repository snapshot contains only the header `dtb.hpp` (class
declarations, the inline `SortEdgesHelper` comparator, and doc comments);
the bodies (`dtb_impl.hpp`), the `EdgePair` type and the `UnionFind`
structure are not part of the snapshot.  Those missing parts are modelled
from the specification (sections 3, 4, 6 and 7 of the spec document);
each such definition carries a doc comment starting `Modelled from the
spec:`.  Points are D-dimensional vectors of exact integer coordinates
(a kernel-computable fragment of the real-valued inputs, exact for every
configuration these claims mention); squared Euclidean distances are
kept exactly in integer form internally, exactly as the header's class
comment states ("uses the squared Euclidean distance"), and the square
root is applied only in the emission layer, mirroring the spec's
requirement that reported distances are true Euclidean distances.
-/

/-- A point is a vector of exact integer coordinates (one entry per dimension). -/
abbrev Pt := List ℤ

/-- Coordinate access with default 0 (out-of-range dimensions read as 0). -/
def coordAt (p : Pt) (d : ℕ) : ℤ := p.getD d 0

/-- Squared Euclidean distance between two points, exact integer
arithmetic.  This is the quantity the engine compares internally. -/
def sqDistQ (p q : Pt) : ℤ := (List.zipWith (fun a b => (a - b) ^ 2) p q).sum

/-- Point of a dataset at an index (default: the empty point). -/
def dataPt (data : List Pt) (i : ℕ) : Pt := data.getD i []

/-- Modelled from the spec: the `UnionFind` collaborator (spec section 6:
`Find(index) -> componentId`, `Union(indexA, indexB)`,
`NumComponents()`), whose source file is absent from the snapshot.  The
partition over indices `0..N-1` is represented by the list of
representatives: entry `i` is the representative of the component of
point `i`. -/
structure UF where
  rep : List ℕ
deriving DecidableEq, Repr

/-- Modelled from the spec: the initial union-find state is `N` singleton
components (spec section 4.1, state `Initialized`). -/
def UF.init (n : ℕ) : UF := ⟨List.range n⟩

/-- Find: representative of the component containing index `i`. -/
def UF.find (u : UF) (i : ℕ) : ℕ := u.rep.getD i 0

/-- Union: merge the component of `b` into the component of `a`
(every index whose representative was `find b` now has representative
`find a`). -/
def UF.union (u : UF) (a b : ℕ) : UF :=
  ⟨u.rep.map (fun x => if x = u.find b then u.find a else x)⟩

/-- Number of distinct components (distinct representative values). -/
def UF.numComponents (u : UF) : ℕ := u.rep.toFinset.card

/-- Well-formedness of the union-find state over `n` points: one entry
per point, representatives in range, and `find` idempotent. -/
def UF.WF (u : UF) (n : ℕ) : Prop :=
  u.rep.length = n ∧ (∀ i < n, u.find i < n) ∧ ∀ i < n, u.find (u.find i) = u.find i

instance (u : UF) (n : ℕ) : Decidable (u.WF n) := by
  unfold UF.WF; infer_instance

/-- Modelled from the spec: a candidate edge (spec section 3): the best
known connection from one component to a different component found
during the current iteration, as (in-component point, out-of-component
point, squared distance). -/
structure Cand where
  inPoint : ℕ
  outPoint : ℕ
  dist : ℤ
deriving DecidableEq, Repr

/-- Candidate table for the current iteration: one optional candidate per
component slot, indexed by the component representative. -/
def CandState := List (Option Cand)

instance : DecidableEq CandState := by
  unfold CandState; infer_instance

/-- Modelled from the spec: empty candidate table at the start of an
iteration (one empty slot per point index). -/
def initCands (n : ℕ) : CandState := List.replicate n none

/-- Modelled from the spec: record the cross-component pair `(q, r)` at
distance `d` as candidate for `q`'s component if it is strictly better
than the stored one ("ties broken by first-found; lower distance always
wins", spec section 4.1 step 2). -/
def updateCand (u : UF) (s : CandState) (q r : ℕ) (d : ℤ) : CandState :=
  match s.getD (u.find q) none with
  | none => s.set (u.find q) (some ⟨q, r, d⟩)
  | some old => if d < old.dist then s.set (u.find q) (some ⟨q, r, d⟩) else s

/-- Modelled from the spec: visiting one ordered point pair in the base
case (spec section 4.2): if the two points belong to different
components, compute their squared distance and update the candidate of
the query point's component. -/
def visitPair (data : List Pt) (u : UF) (s : CandState) (qr : ℕ × ℕ) : CandState :=
  if u.find qr.1 ≠ u.find qr.2 then
    updateCand u s qr.1 qr.2 (sqDistQ (dataPt data qr.1) (dataPt data qr.2))
  else s

/-- Fold a list of visited ordered pairs through `visitPair`. -/
def applyVisits (data : List Pt) (u : UF) (s : CandState) (l : List (ℕ × ℕ)) : CandState :=
  l.foldl (visitPair data u) s

/-- All ordered pairs `(q, r)` with `q, r < n`, in ascending query-major
order: the visit order of the brute-force naive search. -/
def allPairs (n : ℕ) : List (ℕ × ℕ) :=
  (List.range n).flatMap (fun q => (List.range n).map (fun r => (q, r)))

/-- Modelled from the spec: a confirmed MST edge (the `EdgePair` type,
absent from the snapshot): lesser index, greater index, squared
distance (spec section 3: "lesser index, greater index, distance"). -/
structure IEdge where
  lesser : ℕ
  greater : ℕ
  dist : ℤ
deriving DecidableEq, Repr

/-- Modelled from the spec: the merge step (spec section 4.1 step 3):
process the candidate edges in discovery order; for each, if the two
endpoints are still in different components, append the edge
(min, max, distance) and union the components, else discard it. -/
def mergeStep (cs : CandState) (st : UF × List IEdge) (c : ℕ) : UF × List IEdge :=
  match cs.getD c none with
  | none => st
  | some cand =>
    if st.1.find cand.inPoint = st.1.find cand.outPoint then st
    else (st.1.union cand.inPoint cand.outPoint,
          st.2 ++ [⟨min cand.inPoint cand.outPoint,
                    max cand.inPoint cand.outPoint, cand.dist⟩])

def mergeAll (n : ℕ) (cs : CandState) (u : UF) (es : List IEdge) : UF × List IEdge :=
  (List.range n).foldl (mergeStep cs) (u, es)

/-- Minimum of two optional distances, `none` meaning plus infinity
(the `DBL_MAX` reset value of the C++ code). -/
def oMin : Option ℤ → Option ℤ → Option ℤ
| none, b => b
| some x, none => some x
| some x, some y => some (min x y)

/-- Maximum of two optional distances, `none` meaning plus infinity
(so `none` is absorbing). -/
def oMax : Option ℤ → Option ℤ → Option ℤ
| none, _ => none
| _, none => none
| some x, some y => some (max x y)

/-- Order on optional distances with `none` as plus infinity. -/
def oLE : Option ℤ → Option ℤ → Prop
| _, none => True
| none, some _ => False
| some x, some y => x ≤ y

instance (a b : Option ℤ) : Decidable (oLE a b) := by
  unfold oLE; rcases a with _ | x <;> rcases b with _ | y <;> infer_instance

/-- Minimum squared distance from point `q` to a cross-component point
among the reference indices `rs` (`none` when no cross-component
reference exists). -/
def crossMinFold (data : List Pt) (u : UF) (q : ℕ) (rs : List ℕ) : Option ℤ :=
  rs.foldl
    (fun acc r =>
      if u.find q ≠ u.find r then
        oMin acc (some (sqDistQ (dataPt data q) (dataPt data r)))
      else acc)
    none

/-- True squared distance from point `q` to its nearest
out-of-component neighbor over the whole point set (`none` when the
whole set lies in `q`'s component). -/
def nearestCrossSq (data : List Pt) (u : UF) (n q : ℕ) : Option ℤ :=
  crossMinFold data u q (List.range n)

/-- Axis-aligned bounding rectangle: per-dimension (lower, upper) pairs
(the `HRectBound` collaborator of the header). -/
abbrev Rect := List (ℤ × ℤ)

/-- Degenerate rectangle of a single point. -/
def ptRect (p : Pt) : Rect := p.map (fun x => (x, x))

/-- Smallest rectangle containing two rectangles. -/
def rectJoin (a b : Rect) : Rect :=
  List.zipWith (fun iv jv => (min iv.1 jv.1, max iv.2 jv.2)) a b

/-- Bounding rectangle of the points at the given indices. -/
def rectOf (data : List Pt) (idxs : List ℕ) : Rect :=
  match idxs with
  | [] => []
  | i :: rest =>
      rest.foldl (fun acc j => rectJoin acc (ptRect (dataPt data j))) (ptRect (dataPt data i))

/-- Squared gap between two intervals (0 when they overlap). -/
def gapSq (iv jv : ℤ × ℤ) : ℤ := (max 0 (max (iv.1 - jv.2) (jv.1 - iv.2))) ^ 2

/-- Minimum possible squared distance between two rectangles: the prune
quantity of spec section 4.2. -/
def minDistSqRect (a b : Rect) : ℤ := (List.zipWith gapSq a b).sum

/-- Point membership in a rectangle (componentwise containment). -/
def inRect (p : Pt) (r : Rect) : Prop :=
  List.Forall₂ (fun x iv => iv.1 ≤ x ∧ x ≤ iv.2) p r

/-- Node statistic from the source header (dtb.hpp lines 29-70): the
upper bound on the distance to nearest neighbors (`none` standing for
the plus-infinity reset value) and the component all points of the node
belong to (negative when mixed). -/
structure DTBStat where
  maxNeighborDistance : Option ℤ
  componentMembership : Int
deriving DecidableEq, Repr

/-- Modelled from the spec: the spatial-index collaborator (spec
sections 2 and 3): a binary tree whose leaves own point indices and
whose nodes carry a `DTBStat`. -/
inductive DTree where
| leaf (pts : List ℕ) (stat : DTBStat)
| node (stat : DTBStat) (left right : DTree)
deriving DecidableEq, Repr

/-- Statistic of the root node of a (sub)tree. -/
def DTree.stat : DTree → DTBStat
| .leaf _ s => s
| .node s _ _ => s

/-- Indices owned by the subtree. -/
def DTree.pts : DTree → List ℕ
| .leaf ps _ => ps
| .node _ l r => l.pts ++ r.pts

/-- Number of nodes of the tree. -/
def DTree.size : DTree → ℕ
| .leaf _ _ => 1
| .node _ l r => 1 + l.size + r.size

/-- Root maximum-neighbor-distance bound. -/
def DTree.mnd (t : DTree) : Option ℤ := t.stat.maxNeighborDistance

/-- Modelled from the spec: component membership of a leaf (spec section
4.1 step 1: uniform if every contained point shares a component via
`Find`, else -1). -/
def leafMembership (u : UF) (pts : List ℕ) : Int :=
  match pts with
  | [] => -1
  | p :: rest => if rest.all (fun x => u.find x = u.find p) then (u.find p : Int) else -1

/-- Modelled from the spec: membership of an internal node (spec section
4.1 step 1: propagate child value only if both children agree and are
non-negative, else -1). -/
def combineMembership (a b : Int) : Int := if a = b ∧ 0 ≤ a then a else -1

/-- Modelled from the spec: the per-iteration `Cleanup` (spec section
4.1 step 1): reset every maxNeighborDistance to plus infinity and
recompute componentMembership bottom-up. -/
def cleanup (u : UF) : DTree → DTree
| .leaf pts _ => .leaf pts ⟨none, leafMembership u pts⟩
| .node _ l r =>
    let l2 := cleanup u l
    let r2 := cleanup u r
    .node ⟨none, combineMembership l2.stat.componentMembership r2.stat.componentMembership⟩ l2 r2

/-- Ordered Cartesian product of two index lists, query-major: the visit
order of a leaf-leaf base case. -/
def pairProd (a b : List ℕ) : List (ℕ × ℕ) :=
  a.flatMap (fun x => b.map (fun y => (x, y)))

/-- Modelled from the spec: new upper bound contributed by a leaf-leaf
base case (spec section 4.2): the largest, over the query leaf's
points, of the distance to the nearest cross-component point of the
reference leaf (`none` when some query point has no cross-component
reference there, in which case no tightening is possible). -/
def leafCrossBound (data : List Pt) (u : UF) (qp rp : List ℕ) : Option ℤ :=
  match qp with
  | [] => none
  | q :: rest =>
      rest.foldl (fun acc q2 => oMax acc (crossMinFold data u q2 rp))
        (crossMinFold data u q rp)

/-- Modelled from the spec: the same-component short-circuit test (spec
section 4.2): equal non-negative membership tags. -/
def sameCompSkip (Q R : DTree) : Bool :=
  decide (Q.stat.componentMembership = R.stat.componentMembership ∧
          0 ≤ Q.stat.componentMembership)

/-- Modelled from the spec: the prune test (spec section 4.2): the
minimum possible distance between the two bounding regions exceeds the
query node's current bound (an infinite bound never prunes). -/
def pruneCheck (data : List Pt) (Q R : DTree) : Bool :=
  match Q.stat.maxNeighborDistance with
  | none => false
  | some m => decide (m < minDistSqRect (rectOf data Q.pts) (rectOf data R.pts))

/-- Modelled from the spec: the dual-tree recursion (spec section 4.2),
with explicit fuel (any fuel at least the combined node count gives the
full traversal).  It returns the query tree with tightened bounds
together with the list of ordered point pairs visited in base cases;
the candidate updates are `applyVisits` over that list (the bound
updates do not read the candidate table, so this factoring is
observably the interleaved computation).  Reference children are
visited more-promising-first; the self-pair diagonal is harmless here
because identical indices share a component and are skipped by the
cross-component check. -/
def dtRec (data : List Pt) (u : UF) : ℕ → DTree → DTree → DTree × List (ℕ × ℕ)
| 0, Q, _ => (Q, [])
| fuel+1, Q, R =>
  if pruneCheck data Q R ∨ sameCompSkip Q R then (Q, [])
  else
    match Q, R with
    | .leaf qp qs, .leaf rp _ =>
        (.leaf qp ⟨oMin qs.maxNeighborDistance (leafCrossBound data u qp rp),
                   qs.componentMembership⟩,
         pairProd qp rp)
    | .leaf _ _, .node _ rl rr =>
        let dl := minDistSqRect (rectOf data Q.pts) (rectOf data rl.pts)
        let dr := minDistSqRect (rectOf data Q.pts) (rectOf data rr.pts)
        if dl ≤ dr then
          let s1 := dtRec data u fuel Q rl
          let s2 := dtRec data u fuel s1.1 rr
          (s2.1, s1.2 ++ s2.2)
        else
          let s1 := dtRec data u fuel Q rr
          let s2 := dtRec data u fuel s1.1 rl
          (s2.1, s1.2 ++ s2.2)
    | .node qs ql qr, .leaf _ _ =>
        let s1 := dtRec data u fuel ql R
        let s2 := dtRec data u fuel qr R
        (.node ⟨oMax s1.1.mnd s2.1.mnd, qs.componentMembership⟩ s1.1 s2.1,
         s1.2 ++ s2.2)
    | .node qs ql qr, .node _ rl rr =>
        let a :=
          let dl := minDistSqRect (rectOf data ql.pts) (rectOf data rl.pts)
          let dr := minDistSqRect (rectOf data ql.pts) (rectOf data rr.pts)
          if dl ≤ dr then
            let s1 := dtRec data u fuel ql rl
            let s2 := dtRec data u fuel s1.1 rr
            (s2.1, s1.2 ++ s2.2)
          else
            let s1 := dtRec data u fuel ql rr
            let s2 := dtRec data u fuel s1.1 rl
            (s2.1, s1.2 ++ s2.2)
        let b :=
          let dl := minDistSqRect (rectOf data qr.pts) (rectOf data rl.pts)
          let dr := minDistSqRect (rectOf data qr.pts) (rectOf data rr.pts)
          if dl ≤ dr then
            let s1 := dtRec data u fuel qr rl
            let s2 := dtRec data u fuel s1.1 rr
            (s2.1, s1.2 ++ s2.2)
          else
            let s1 := dtRec data u fuel qr rr
            let s2 := dtRec data u fuel s1.1 rl
            (s2.1, s1.2 ++ s2.2)
        (.node ⟨oMax a.1.mnd b.1.mnd, qs.componentMembership⟩ a.1 b.1,
         a.2 ++ b.2)

/-- Spread (max minus min coordinate) of the indexed points along
dimension `d`. -/
def dimSpread (data : List Pt) (idxs : List ℕ) (d : ℕ) : ℤ :=
  match idxs with
  | [] => 0
  | i :: rest =>
      let c0 := coordAt (dataPt data i) d
      let mm := rest.foldl
        (fun acc j =>
          let c := coordAt (dataPt data j) d
          (max acc.1 c, min acc.2 c)) (c0, c0)
      mm.1 - mm.2

/-- Dimension of maximal spread among dimensions `0..dims-1`. -/
def widestDim (data : List Pt) (dims : ℕ) (idxs : List ℕ) : ℕ :=
  (List.range dims).foldl
    (fun best d => if dimSpread data idxs best < dimSpread data idxs d then d else best) 0

/-- Stable sort of indices by their coordinate along dimension `d`. -/
def sortByCoord (data : List Pt) (d : ℕ) (idxs : List ℕ) : List ℕ :=
  idxs.insertionSort (fun i j => coordAt (dataPt data i) d ≤ coordAt (dataPt data j) d)

/-- Modelled from the spec: the balanced binary-space-partitioning tree
builder (spec sections 2 and 6; the concrete builder is the external
`BinarySpaceTree` collaborator, absent from the snapshot): a node's
points are split at the median of the dimension of widest spread;
recursion stops at `leafSize` points (the constructor parameter,
default 1 in the header).  Fuel at least the index count suffices. -/
def buildTreeAux (data : List Pt) (dims leafSize : ℕ) : ℕ → List ℕ → DTree
| 0, idxs => .leaf idxs ⟨none, -1⟩
| fuel+1, idxs =>
  if idxs.length ≤ leafSize ∨ idxs.length ≤ 1 then .leaf idxs ⟨none, -1⟩
  else
    let s := sortByCoord data (widestDim data dims idxs) idxs
    .node ⟨none, -1⟩
      (buildTreeAux data dims leafSize fuel (s.take (s.length / 2)))
      (buildTreeAux data dims leafSize fuel (s.drop (s.length / 2)))

/-- Tree over the whole point set (dimension count read off the first
point; the engine's datasets are dimension-uniform). -/
def buildTree (data : List Pt) (leafSize : ℕ) : DTree :=
  buildTreeAux data (dataPt data 0).length leafSize data.length (List.range data.length)

/-- State of the iteration driver: union-find partition, accumulated
edge list, and the spatial tree (spec section 4.1). -/
structure AlgState where
  uf : UF
  edges : List IEdge
  tree : DTree
deriving DecidableEq

/-- Modelled from the spec: the per-iteration search (spec section 4.1
step 2): naive mode bypasses the tree and scans all ordered pairs in
ascending order; tree mode runs `Cleanup` and then the dual-tree
recursion on the root against itself.  Returns the (possibly updated)
tree and the visited pair list. -/
def searchVisits (data : List Pt) (naive : Bool) (st : AlgState) : DTree × List (ℕ × ℕ) :=
  if naive then (st.tree, allPairs data.length)
  else
    let T1 := cleanup st.uf st.tree
    dtRec data st.uf (2 * T1.size + 1) T1 T1

/-- Candidate table computed by one round's search phase. -/
def roundCands (data : List Pt) (naive : Bool) (st : AlgState) : CandState :=
  applyVisits data st.uf (initCands data.length) (searchVisits data naive st).2

/-- Modelled from the spec: one Boruvka round (spec section 4.1 steps
1-3): search for per-component candidate edges, then merge them. -/
def boruvkaRound (data : List Pt) (naive : Bool) (st : AlgState) : AlgState :=
  let n := data.length
  let tv := searchVisits data naive st
  let cands := applyVisits data st.uf (initCands n) tv.2
  let ue := mergeAll n cands st.uf st.edges
  ⟨ue.1, ue.2, tv.1⟩

/-- Modelled from the spec: the iteration loop (spec section 4.1): repeat
rounds until one component remains; fuel `N` is ample (the component
count at least halves per round). -/
def boruvkaLoop (data : List Pt) (naive : Bool) : ℕ → AlgState → AlgState
| 0, st => st
| fuel+1, st =>
    if st.uf.numComponents ≤ 1 then st
    else boruvkaLoop data naive fuel (boruvkaRound data naive st)

/-- Initial engine state (spec section 4.1, state `Initialized`): N
singleton components, empty edge list, and the tree (a single
all-points leaf in naive mode, which bypasses the tree). -/
def initState (data : List Pt) (naive : Bool) (leafSize : ℕ) : AlgState :=
  ⟨UF.init data.length, [],
   if naive then .leaf (List.range data.length) ⟨none, -1⟩
   else buildTree data leafSize⟩

/-- Run the full iteration to convergence. -/
def runBoruvka (data : List Pt) (naive : Bool) (leafSize : ℕ) : AlgState :=
  boruvkaLoop data naive data.length (initState data naive leafSize)

/-- Modelled from the spec: failure conditions (spec section 7). -/
inductive EmstErr where
| invalidInput
deriving DecidableEq, Repr

/-- Nondecreasing-distance comparison on edges (the order produced by
sorting with the source's `SortEdgesHelper` comparator). -/
def edgeDistLE (a b : IEdge) : Prop := a.dist ≤ b.dist

instance : DecidableRel edgeDistLE := fun a b => by unfold edgeDistLE; infer_instance

instance : IsTotal IEdge edgeDistLE := ⟨fun a b => le_total a.dist b.dist⟩

instance : IsTrans IEdge edgeDistLE := ⟨fun _ _ _ h1 h2 => le_trans h1 h2⟩

/-- Modelled from the spec: edge list sorted for emission.  The
comparator is the source's `SortEdgesHelper` (dtb.hpp lines 129-135):
strict less-than on distance handed to std::sort, which produces
nondecreasing distance order, rendered here as a stable sort by
less-or-equal on the squared distance. -/
def sortEdges (es : List IEdge) : List IEdge :=
  es.insertionSort edgeDistLE

/-- Modelled from the spec: the internal result of `ComputeMST` (spec
sections 4.1 and 7): reject point sets with fewer than two points with
`InvalidInput`, otherwise run the iteration and return the sorted edge
list (still carrying squared distances and tree-internal indices). -/
def mstEdges (data : List Pt) (naive : Bool) (leafSize : ℕ) : Except EmstErr (List IEdge) :=
  if data.length < 2 then .error .invalidInput
  else .ok (sortEdges (runBoruvka data naive leafSize).edges)

/-- Modelled from the spec: `EmitResults` (spec section 4.1 contract):
translate indices back to original input ordering through `oldFromNew`,
write the lesser translated index first, and report the true
(non-squared) Euclidean distance. -/
noncomputable def emitResults (oldFromNew : List ℕ) (es : List IEdge) : List (ℕ × ℕ × ℝ) :=
  es.map (fun e =>
    (min (oldFromNew.getD e.lesser 0) (oldFromNew.getD e.greater 0),
     max (oldFromNew.getD e.lesser 0) (oldFromNew.getD e.greater 0),
     Real.sqrt (e.dist : ℝ)))

/-- Full `ComputeMST` with an explicit tree-build permutation
`oldFromNew` (new index to original index). -/
noncomputable def computeMSTWith (data : List Pt) (oldFromNew : List ℕ)
    (naive : Bool) (leafSize : ℕ) : Except EmstErr (List (ℕ × ℕ × ℝ)) :=
  (mstEdges data naive leafSize).map (emitResults oldFromNew)

/-- Full `ComputeMST` for the identity permutation (this model's builder
keeps original indices in the leaves, so its `oldFromNew` is the
identity). -/
noncomputable def computeMST (data : List Pt) (naive : Bool) (leafSize : ℕ) :
    Except EmstErr (List (ℕ × ℕ × ℝ)) :=
  computeMSTWith data (List.range data.length) naive leafSize

/-- Total reported distance: sum of the emitted (true Euclidean)
distances (spec section 3, Total Distance). -/
noncomputable def totalDistOf (res : List (ℕ × ℕ × ℝ)) : ℝ :=
  (res.map (fun c => c.2.2)).sum

/-- True Euclidean distance between two points, defined over the reals
independently of the engine's internal squared representation. -/
noncomputable def euclidDistR (p q : Pt) : ℝ :=
  Real.sqrt ((List.zipWith (fun a b => (a - b) ^ 2)
    (p.map (Int.cast : ℤ → ℝ)) (q.map (Int.cast : ℤ → ℝ))).sum)

/-- Symmetric adjacency along a list of index pairs. -/
def edgeRel (ps : List (ℕ × ℕ)) (x y : ℕ) : Prop := (x, y) ∈ ps ∨ (y, x) ∈ ps

/-- All pairwise squared distances between distinct indexed points are
distinct (unordered pairs compared): the general-position hypothesis
under which candidate selection is tie-free. -/
def PairwiseDistinctDists (data : List Pt) : Prop :=
  ∀ i ∈ List.range data.length, ∀ j ∈ List.range data.length,
    ∀ k ∈ List.range data.length, ∀ l ∈ List.range data.length,
    i < j → k < l → (i, j) ≠ (k, l) →
    sqDistQ (dataPt data i) (dataPt data j) ≠ sqDistQ (dataPt data k) (dataPt data l)

instance (data : List Pt) : Decidable (PairwiseDistinctDists data) := by
  unfold PairwiseDistinctDists; infer_instance

/-- Validity of the bound statistics of a tree: every node's bound is at
least the true nearest cross-component squared distance of every point
of its subtree (the invariant of spec sections 3 and 4.2). -/
def BoundsValid (data : List Pt) (u : UF) (n : ℕ) : DTree → Prop
| .leaf ps s => ∀ p ∈ ps, oLE (nearestCrossSq data u n p) s.maxNeighborDistance
| .node s l r =>
    (∀ p ∈ l.pts ++ r.pts, oLE (nearestCrossSq data u n p) s.maxNeighborDistance) ∧
    BoundsValid data u n l ∧ BoundsValid data u n r

instance instDecBoundsValid (data : List Pt) (u : UF) (n : ℕ) :
    ∀ (t : DTree), Decidable (BoundsValid data u n t)
| .leaf _ _ => by unfold BoundsValid; infer_instance
| .node _ l r =>
    have := instDecBoundsValid data u n l
    have := instDecBoundsValid data u n r
    by unfold BoundsValid; exact instDecidableAnd

/-- Validity of the membership tags: a non-negative tag means every
point of the subtree has that `find` value. -/
def TagsValid (u : UF) : DTree → Prop
| .leaf ps s => 0 ≤ s.componentMembership →
    ∀ p ∈ ps, (u.find p : Int) = s.componentMembership
| .node s l r =>
    (0 ≤ s.componentMembership →
      ∀ p ∈ l.pts ++ r.pts, (u.find p : Int) = s.componentMembership) ∧
    TagsValid u l ∧ TagsValid u r

instance instDecTagsValid (u : UF) : ∀ (t : DTree), Decidable (TagsValid u t)
| .leaf _ _ => by unfold TagsValid; infer_instance
| .node _ l r =>
    have := instDecTagsValid u l
    have := instDecTagsValid u r
    by unfold TagsValid; exact instDecidableAnd

/-- Every node's bound dominates the bounds of its children (holds after
`Cleanup` and is maintained by the recursion, making the bounds
monotonically nonincreasing over time). -/
def MaxInv : DTree → Prop
| .leaf _ _ => True
| .node s l r =>
    oLE (oMax l.mnd r.mnd) s.maxNeighborDistance ∧ MaxInv l ∧ MaxInv r

instance instDecMaxInv : ∀ (t : DTree), Decidable (MaxInv t)
| .leaf _ _ => by unfold MaxInv; infer_instance
| .node _ l r =>
    have := instDecMaxInv l
    have := instDecMaxInv r
    by unfold MaxInv; exact instDecidableAnd

/-- Pointwise comparison of bounds between two trees of the same shape
(used to state that recursion only tightens bounds). -/
def BoundsLE : DTree → DTree → Prop
| .leaf ps s, .leaf ps2 s2 => ps = ps2 ∧ oLE s.maxNeighborDistance s2.maxNeighborDistance
| .node s l r, .node s2 l2 r2 =>
    oLE s.maxNeighborDistance s2.maxNeighborDistance ∧ BoundsLE l l2 ∧ BoundsLE r r2
| _, _ => False

instance : ∀ (t t2 : DTree), Decidable (BoundsLE t t2)
| .leaf _ _, .leaf _ _ => by unfold BoundsLE; infer_instance
| .leaf _ _, .node _ _ _ => by unfold BoundsLE; infer_instance
| .node _ _ _, .leaf _ _ => by unfold BoundsLE; infer_instance
| .node _ l r, .node _ l2 r2 =>
    have := instDecidableBoundsLE l l2
    have := instDecidableBoundsLE r r2
    by unfold BoundsLE; exact instDecidableAnd

/-- Tree with all bounds erased (set to the infinite reset value) but
membership tags kept: the part of the tree the recursion never changes. -/
def stripB : DTree → DTree
| .leaf ps s => .leaf ps ⟨none, s.componentMembership⟩
| .node s l r => .node ⟨none, s.componentMembership⟩ (stripB l) (stripB r)

/-- Well-formedness of a candidate table over `n` points: a stored
candidate sits in the slot of its in-point's component, joins two
different components, and carries the genuine squared distance of its
own endpoints. -/
def CandsWF (data : List Pt) (u : UF) (n : ℕ) (cs : CandState) : Prop :=
  cs.length = n ∧
  ∀ c, ∀ cand : Cand, cs.getD c none = some cand →
    u.find cand.inPoint = c ∧ u.find cand.inPoint ≠ u.find cand.outPoint ∧
    cand.dist = sqDistQ (dataPt data cand.inPoint) (dataPt data cand.outPoint) ∧
    cand.inPoint < n ∧ cand.outPoint < n

/-- Well-formedness of the accumulated edge list: ordered endpoints in
range carrying the genuine squared distance of their points. -/
def EdgesWF (data : List Pt) (n : ℕ) (es : List IEdge) : Prop :=
  ∀ e ∈ es, e.lesser < e.greater ∧ e.greater < n ∧
    e.dist = sqDistQ (dataPt data e.lesser) (dataPt data e.greater)

/-- Well-formedness of the iteration state over `n` points: sound
union-find and a tree whose leaves hold exactly the point indices. -/
def StateWF (n : ℕ) (st : AlgState) : Prop :=
  st.uf.WF n ∧ st.tree.pts.Perm (List.range n)

/-- The ordered pair `(q, r)` is a cheapest edge leaving the component
`c` (spec glossary, Boruvka's algorithm): `q` lies in `c`, `r` outside,
and no cross-component pair rooted in `c` is strictly shorter. -/
def IsBestPair (data : List Pt) (u : UF) (n : ℕ) (c : ℕ) (q r : ℕ) : Prop :=
  q < n ∧ r < n ∧ u.find q = c ∧ u.find r ≠ c ∧
  ∀ q2 r2, q2 < n → r2 < n → u.find q2 = c → u.find r2 ≠ c →
    sqDistQ (dataPt data q) (dataPt data r) ≤ sqDistQ (dataPt data q2) (dataPt data r2)

/-- Concrete dataset of spec section 8: (0,0), (1,0), (0,1), (10,10). -/
def scnData : List Pt := [[0, 0], [1, 0], [0, 1], [10, 10]]

/-- Concrete dataset with a distance tie: (0,0), (5,0), (3,4); points 1
and 2 are both at squared distance 25 from point 0, and the tree stores
point 2 before point 1 (median split on the x coordinate), while the
naive scan meets point 1 first. -/
def tieData : List Pt := [[0, 0], [5, 0], [3, 4]]

/-- Concrete one-dimensional dataset with pairwise distinct distances. -/
def gpData : List Pt := [[0], [1], [3]]

/-- Symmetric adjacency along the accumulated edge list. -/
def edgesRel (es : List IEdge) (x y : ℕ) : Prop :=
  (∃ e ∈ es, e.lesser = x ∧ e.greater = y) ∨ ∃ e ∈ es, e.lesser = y ∧ e.greater = x

/-- Equality of run outcomes (an error or an edge list) is decidable, so
two concrete runs can be compared by evaluation. -/
instance {ε α : Type} [DecidableEq ε] [DecidableEq α] : DecidableEq (Except ε α)
  | .error x, .error y =>
      if h : x = y then .isTrue (by rw [h])
      else .isFalse (fun hc => h (by injection hc))
  | .error _, .ok _ => .isFalse (fun hc => by injection hc)
  | .ok _, .error _ => .isFalse (fun hc => by injection hc)
  | .ok x, .ok y =>
      if h : x = y then .isTrue (by rw [h])
      else .isFalse (fun hc => h (by injection hc))

theorem oLE_refl (a : Option ℤ) : oLE a a := by
  rcases a with _ | x <;> simp [oLE]

theorem oLE_trans {a b c : Option ℤ} (h1 : oLE a b) (h2 : oLE b c) : oLE a c := by
  rcases a with _ | x <;> rcases b with _ | y <;> rcases c with _ | z <;>
    simp_all [oLE] <;> linarith

theorem oLE_none (a : Option ℤ) : oLE a none := by simp [oLE]

theorem oMin_le_left (a b : Option ℤ) : oLE (oMin a b) a := by
  rcases a with _ | x <;> rcases b with _ | y <;> simp [oMin, oLE, oLE_refl]

theorem oMin_le_right (a b : Option ℤ) : oLE (oMin a b) b := by
  rcases a with _ | x <;> rcases b with _ | y <;> simp [oMin, oLE, oLE_refl]

theorem le_oMin {x a b : Option ℤ} (h1 : oLE x a) (h2 : oLE x b) : oLE x (oMin a b) := by
  rcases x with _ | v <;> rcases a with _ | y <;> rcases b with _ | z <;>
    simp_all [oMin, oLE]

theorem le_oMax_left (a b : Option ℤ) : oLE a (oMax a b) := by
  rcases a with _ | x <;> rcases b with _ | y <;> simp [oMax, oLE]

theorem le_oMax_right (a b : Option ℤ) : oLE b (oMax a b) := by
  rcases a with _ | x <;> rcases b with _ | y <;> simp [oMax, oLE]

theorem oMax_le {a b c : Option ℤ} (h1 : oLE a c) (h2 : oLE b c) : oLE (oMax a b) c := by
  rcases a with _ | x <;> rcases b with _ | y <;> rcases c with _ | z <;>
    simp_all [oMax, oLE]

theorem oMax_mono {a b a2 b2 : Option ℤ} (h1 : oLE a a2) (h2 : oLE b b2) :
    oLE (oMax a b) (oMax a2 b2) := by
  exact oMax_le (oLE_trans h1 (le_oMax_left a2 b2)) (oLE_trans h2 (le_oMax_right a2 b2))

theorem oMin_le_of_left {a b c : Option ℤ} (h : oLE a c) : oLE (oMin a b) c :=
  oLE_trans (oMin_le_left a b) h

theorem crossMinFold_acc (data : List Pt) (u : UF) (q : ℕ) (rs : List ℕ)
    (acc : Option ℤ) :
    oLE (rs.foldl
      (fun acc r =>
        if u.find q ≠ u.find r then
          oMin acc (some (sqDistQ (dataPt data q) (dataPt data r)))
        else acc) acc) acc := by
  induction rs generalizing acc with
  | nil => exact oLE_refl acc
  | cons r rest ih =>
      simp only [List.foldl_cons]
      by_cases h : u.find q ≠ u.find r
      · rw [if_pos h]
        exact oLE_trans (ih _) (oMin_le_left _ _)
      · rw [if_neg h]
        exact ih acc

theorem crossMinFold_le_mem_aux (data : List Pt) (u : UF) (q : ℕ) (rs : List ℕ)
    {r : ℕ} (hr : r ∈ rs) (hcross : u.find q ≠ u.find r) :
    ∀ acc : Option ℤ,
      oLE (rs.foldl
        (fun acc r =>
          if u.find q ≠ u.find r then
            oMin acc (some (sqDistQ (dataPt data q) (dataPt data r)))
          else acc) acc)
        (some (sqDistQ (dataPt data q) (dataPt data r))) := by
  induction rs with
  | nil => cases hr
  | cons r2 rest ih =>
      intro acc
      simp only [List.foldl_cons]
      rcases List.mem_cons.mp hr with h | h
      · subst h
        rw [if_pos hcross]
        exact oLE_trans (crossMinFold_acc data u q rest _) (oMin_le_right _ _)
      · by_cases h2 : u.find q ≠ u.find r2
        · rw [if_pos h2]; exact ih h _
        · rw [if_neg h2]; exact ih h _

theorem crossMinFold_le_mem (data : List Pt) (u : UF) (q : ℕ) (rs : List ℕ)
    {r : ℕ} (hr : r ∈ rs) (hcross : u.find q ≠ u.find r) :
    oLE (crossMinFold data u q rs) (some (sqDistQ (dataPt data q) (dataPt data r))) :=
  crossMinFold_le_mem_aux data u q rs hr hcross none

theorem le_crossMinFold (data : List Pt) (u : UF) (q : ℕ) (rs : List ℕ)
    {x : Option ℤ}
    (h : ∀ r ∈ rs, u.find q ≠ u.find r →
      oLE x (some (sqDistQ (dataPt data q) (dataPt data r)))) :
    oLE x (crossMinFold data u q rs) := by
  unfold crossMinFold
  have aux : ∀ (l : List ℕ),
      (∀ r ∈ l, u.find q ≠ u.find r →
        oLE x (some (sqDistQ (dataPt data q) (dataPt data r)))) →
      ∀ acc : Option ℤ, oLE x acc →
      oLE x (l.foldl
        (fun acc r =>
          if u.find q ≠ u.find r then
            oMin acc (some (sqDistQ (dataPt data q) (dataPt data r)))
          else acc) acc) := by
    intro l
    induction l with
    | nil => intro _ acc hacc; exact hacc
    | cons r rest ih =>
        intro hl acc hacc
        simp only [List.foldl_cons]
        by_cases h2 : u.find q ≠ u.find r
        · rw [if_pos h2]
          exact ih (fun r2 hr2 hc => hl r2 (List.mem_cons_of_mem _ hr2) hc) _
            (le_oMin hacc (hl r (List.mem_cons_self _ _) h2))
        · rw [if_neg h2]
          exact ih (fun r2 hr2 hc => hl r2 (List.mem_cons_of_mem _ hr2) hc) _ hacc
  exact aux rs h none (oLE_none x)

theorem crossMinFold_cases (data : List Pt) (u : UF) (q : ℕ) (rs : List ℕ) :
    crossMinFold data u q rs = none ∨
    ∃ r ∈ rs, u.find q ≠ u.find r ∧
      crossMinFold data u q rs = some (sqDistQ (dataPt data q) (dataPt data r)) := by
  unfold crossMinFold
  have aux : ∀ (l : List ℕ) (acc : Option ℤ),
      (l.foldl
        (fun acc r =>
          if u.find q ≠ u.find r then
            oMin acc (some (sqDistQ (dataPt data q) (dataPt data r)))
          else acc) acc) = acc ∨
      ∃ r ∈ l, u.find q ≠ u.find r ∧
        (l.foldl
          (fun acc r =>
            if u.find q ≠ u.find r then
              oMin acc (some (sqDistQ (dataPt data q) (dataPt data r)))
            else acc) acc) = some (sqDistQ (dataPt data q) (dataPt data r)) := by
    intro l
    induction l with
    | nil => intro acc; left; rfl
    | cons r rest ih =>
        intro acc
        simp only [List.foldl_cons]
        by_cases h2 : u.find q ≠ u.find r
        · rw [if_pos h2]
          have hstep : oMin acc (some (sqDistQ (dataPt data q) (dataPt data r))) = acc ∨
              oMin acc (some (sqDistQ (dataPt data q) (dataPt data r))) =
                some (sqDistQ (dataPt data q) (dataPt data r)) := by
            rcases acc with _ | x
            · right; rfl
            · rcases min_choice x (sqDistQ (dataPt data q) (dataPt data r)) with hm | hm
              · left; simp [oMin, hm]
              · right; simp [oMin, hm]
          rcases ih (oMin acc (some (sqDistQ (dataPt data q) (dataPt data r)))) with
            hrest | ⟨r2, hr2, hc2, he2⟩
          · rcases hstep with ha | ha
            · left; rw [hrest, ha]
            · right
              exact ⟨r, List.mem_cons_self _ _, h2, by rw [hrest, ha]⟩
          · right
            exact ⟨r2, List.mem_cons_of_mem _ hr2, hc2, he2⟩
        · rw [if_neg h2]
          rcases ih acc with hrest | ⟨r2, hr2, hc2, he2⟩
          · left; exact hrest
          · right; exact ⟨r2, List.mem_cons_of_mem _ hr2, hc2, he2⟩
  rcases aux rs none with h | h
  · left; exact h
  · right; exact h

theorem gapSq_le {iv jv : ℤ × ℤ} {x y : ℤ}
    (hx1 : iv.1 ≤ x) (hx2 : x ≤ iv.2) (hy1 : jv.1 ≤ y) (hy2 : y ≤ jv.2) :
    gapSq iv jv ≤ (x - y) ^ 2 := by
  unfold gapSq
  rcases max_cases (0 : ℤ) (max (iv.1 - jv.2) (jv.1 - iv.2)) with ⟨h, _⟩ | ⟨h, _⟩
  · rw [h]; positivity
  · rw [h]
    rcases max_cases (iv.1 - jv.2) (jv.1 - iv.2) with ⟨h2, h3⟩ | ⟨h2, h3⟩ <;> rw [h2] <;>
      nlinarith

theorem inRect_ptRect (p : Pt) : inRect p (ptRect p) := by
  induction p with
  | nil => exact List.Forall₂.nil
  | cons x rest ih => exact List.Forall₂.cons ⟨le_refl x, le_refl x⟩ ih

theorem inRect_length {p : Pt} {a : Rect} (h : inRect p a) : p.length = a.length :=
  List.Forall₂.length_eq h

theorem rectJoin_length (a b : Rect) : (rectJoin a b).length = min a.length b.length := by
  unfold rectJoin; exact List.length_zipWith _ _ _

theorem inRect_rectJoin_left {p : Pt} {a b : Rect}
    (h : inRect p a) (hlen : a.length = b.length) : inRect p (rectJoin a b) := by
  induction h generalizing b with
  | nil =>
      cases b with
      | nil => exact List.Forall₂.nil
      | cons _ _ => simp at hlen
  | cons hx hrest ih =>
      cases b with
      | nil => simp at hlen
      | cons jv b2 =>
          refine List.Forall₂.cons ?_ (ih (by simpa using hlen))
          exact ⟨le_trans (min_le_left _ _) hx.1, le_trans hx.2 (le_max_left _ _)⟩

theorem inRect_rectJoin_right {p : Pt} {a b : Rect}
    (h : inRect p b) (hlen : a.length = b.length) : inRect p (rectJoin a b) := by
  induction h generalizing a with
  | nil =>
      cases a with
      | nil => exact List.Forall₂.nil
      | cons _ _ => simp at hlen
  | cons hx hrest ih =>
      cases a with
      | nil => simp at hlen
      | cons iv a2 =>
          refine List.Forall₂.cons ?_ (ih (by simpa using hlen))
          exact ⟨le_trans (min_le_right _ _) hx.1, le_trans hx.2 (le_max_right _ _)⟩

theorem ptRect_length (p : Pt) : (ptRect p).length = p.length := by
  unfold ptRect; exact List.length_map _ _

theorem rectOf_fold_length {data : List Pt} {D : ℕ} (rest : List ℕ) (acc : Rect)
    (hacc : acc.length = D) (hrest : ∀ j ∈ rest, (dataPt data j).length = D) :
    (rest.foldl (fun acc j => rectJoin acc (ptRect (dataPt data j))) acc).length = D := by
  induction rest generalizing acc with
  | nil => exact hacc
  | cons j rest2 ih =>
      simp only [List.foldl_cons]
      refine ih _ ?_ (fun j2 hj2 => hrest j2 (List.mem_cons_of_mem _ hj2))
      rw [rectJoin_length, ptRect_length, hacc, hrest j (List.mem_cons_self _ _)]
      exact min_self D

theorem rectOf_fold_pres {data : List Pt} {D : ℕ} {p : Pt} (rest : List ℕ) (acc : Rect)
    (hp : inRect p acc) (hacc : acc.length = D)
    (hrest : ∀ j ∈ rest, (dataPt data j).length = D) :
    inRect p (rest.foldl (fun acc j => rectJoin acc (ptRect (dataPt data j))) acc) := by
  induction rest generalizing acc with
  | nil => exact hp
  | cons j rest2 ih =>
      simp only [List.foldl_cons]
      have hlen : acc.length = (ptRect (dataPt data j)).length := by
        rw [hacc, ptRect_length, hrest j (List.mem_cons_self _ _)]
      refine ih _ (inRect_rectJoin_left hp hlen) ?_
        (fun j2 hj2 => hrest j2 (List.mem_cons_of_mem _ hj2))
      rw [rectJoin_length, ptRect_length, hacc, hrest j (List.mem_cons_self _ _)]
      exact min_self D

theorem rectOf_fold_mem {data : List Pt} {D : ℕ} {i : ℕ} (rest : List ℕ) :
    ∀ (acc : Rect), i ∈ rest → acc.length = D →
    (∀ j ∈ rest, (dataPt data j).length = D) →
    inRect (dataPt data i) (rest.foldl (fun acc j => rectJoin acc (ptRect (dataPt data j))) acc) := by
  induction rest with
  | nil => intro acc hi; cases hi
  | cons j rest2 ih =>
      intro acc hi hacc hrest
      simp only [List.foldl_cons]
      have hjlen : (dataPt data j).length = D := hrest j (List.mem_cons_self _ _)
      have hstep : (rectJoin acc (ptRect (dataPt data j))).length = D := by
        rw [rectJoin_length, ptRect_length, hacc, hjlen]; exact min_self D
      rcases List.mem_cons.mp hi with h | h
      · subst h
        refine rectOf_fold_pres rest2 _ ?_ hstep
          (fun j2 hj2 => hrest j2 (List.mem_cons_of_mem _ hj2))
        exact inRect_rectJoin_right (inRect_ptRect _) (by rw [hacc, ptRect_length, hjlen])
      · exact ih _ h hstep (fun j2 hj2 => hrest j2 (List.mem_cons_of_mem _ hj2))

theorem rectOf_mem {data : List Pt} {D : ℕ} {idxs : List ℕ} {i : ℕ}
    (hD : ∀ j ∈ idxs, (dataPt data j).length = D) (hi : i ∈ idxs) :
    inRect (dataPt data i) (rectOf data idxs) := by
  cases idxs with
  | nil => cases hi
  | cons i0 rest =>
      unfold rectOf
      have h0 : (ptRect (dataPt data i0)).length = D := by
        rw [ptRect_length]; exact hD i0 (List.mem_cons_self _ _)
      rcases List.mem_cons.mp hi with h | h
      · subst h
        exact rectOf_fold_pres rest _ (inRect_ptRect _) h0
          (fun j hj => hD j (List.mem_cons_of_mem _ hj))
      · exact rectOf_fold_mem rest _ h h0 (fun j hj => hD j (List.mem_cons_of_mem _ hj))

theorem minDistSqRect_le_sqDist {p s : Pt} {a b : Rect}
    (hp : inRect p a) (hs : inRect s b) (hab : a.length = b.length) :
    minDistSqRect a b ≤ sqDistQ p s := by
  unfold minDistSqRect sqDistQ
  induction hp generalizing s b with
  | nil =>
      cases b with
      | nil => simp
      | cons _ _ => simp at hab
  | cons hx hrest ih =>
      cases b with
      | nil => simp at hab
      | cons jv b2 =>
          cases hs with
          | cons hy hs2 =>
              simp only [List.zipWith_cons_cons, List.sum_cons]
              have h1 := gapSq_le hx.1 hx.2 hy.1 hy.2
              have h2 := ih hs2 (by simpa using hab)
              linarith

theorem stripB_pts (t : DTree) : (stripB t).pts = t.pts := by
  induction t with
  | leaf ps s => rfl
  | node s l r ihl ihr => simp [stripB, DTree.pts, ihl, ihr]

theorem stripB_size (t : DTree) : (stripB t).size = t.size := by
  induction t with
  | leaf ps s => rfl
  | node s l r ihl ihr => simp [stripB, DTree.size, ihl, ihr]

theorem stripB_membership (t : DTree) :
    (stripB t).stat.componentMembership = t.stat.componentMembership := by
  cases t <;> rfl

theorem dtRec_stripB (data : List Pt) (u : UF) :
    ∀ (fuel : ℕ) (Q R : DTree), stripB (dtRec data u fuel Q R).1 = stripB Q := by
  intro fuel
  induction fuel with
  | zero => intro Q R; rfl
  | succ fuel ih =>
      intro Q R
      cases Q with
      | leaf qp qs =>
          cases R with
          | leaf rp rs =>
              rw [dtRec]
              split
              · rfl
              · rfl
          | node rs rl rr =>
              rw [dtRec]
              split
              · rfl
              · dsimp only
                split
                · rw [ih, ih]
                · rw [ih, ih]
      | node qs ql qr =>
          cases R with
          | leaf rp rs =>
              rw [dtRec]
              split
              · rfl
              · dsimp only
                simp only [stripB, ih]
          | node rs rl rr =>
              rw [dtRec]
              split
              · rfl
              · dsimp only
                split <;> split <;> simp only [stripB, ih]

theorem dtRec_pts (data : List Pt) (u : UF) (fuel : ℕ) (Q R : DTree) :
    (dtRec data u fuel Q R).1.pts = Q.pts := by
  rw [← stripB_pts, ← stripB_pts Q, dtRec_stripB]

theorem dtRec_size (data : List Pt) (u : UF) (fuel : ℕ) (Q R : DTree) :
    (dtRec data u fuel Q R).1.size = Q.size := by
  rw [← stripB_size, ← stripB_size Q, dtRec_stripB]

theorem tagsValid_stripB (u : UF) (t : DTree) :
    TagsValid u (stripB t) ↔ TagsValid u t := by
  induction t with
  | leaf ps s => exact Iff.rfl
  | node s l r ihl ihr =>
      simp only [stripB, TagsValid, stripB_pts, ihl, ihr]

theorem tagsValid_of_stripB_eq {u : UF} {t1 t2 : DTree}
    (h : stripB t1 = stripB t2) (h2 : TagsValid u t2) : TagsValid u t1 := by
  rw [← tagsValid_stripB] at h2 ⊢
  rw [h]; exact h2

theorem dtRec_tagsValid (data : List Pt) (u : UF) (fuel : ℕ) (Q R : DTree)
    (h : TagsValid u Q) : TagsValid u (dtRec data u fuel Q R).1 :=
  tagsValid_of_stripB_eq (dtRec_stripB data u fuel Q R) h

theorem foldl_oMax_acc (f : ℕ → Option ℤ) (l : List ℕ) (acc : Option ℤ) :
    oLE acc (l.foldl (fun a x => oMax a (f x)) acc) := by
  induction l generalizing acc with
  | nil => exact oLE_refl acc
  | cons x rest ih =>
      simp only [List.foldl_cons]
      exact oLE_trans (le_oMax_left acc (f x)) (ih _)

theorem foldl_oMax_mem (f : ℕ → Option ℤ) (l : List ℕ) :
    ∀ (acc : Option ℤ) {x : ℕ}, x ∈ l →
    oLE (f x) (l.foldl (fun a y => oMax a (f y)) acc) := by
  induction l with
  | nil => intro acc x hx; cases hx
  | cons y rest ih =>
      intro acc x hx
      simp only [List.foldl_cons]
      rcases List.mem_cons.mp hx with h | h
      · subst h
        exact oLE_trans (le_oMax_right acc (f x)) (foldl_oMax_acc f rest _)
      · exact ih _ h

theorem leafCrossBound_ge (data : List Pt) (u : UF) (qp rp : List ℕ)
    {p : ℕ} (hp : p ∈ qp) :
    oLE (crossMinFold data u p rp) (leafCrossBound data u qp rp) := by
  cases qp with
  | nil => cases hp
  | cons q rest =>
      unfold leafCrossBound
      rcases List.mem_cons.mp hp with h | h
      · subst h
        exact foldl_oMax_acc (fun q2 => crossMinFold data u q2 rp) rest _
      · exact foldl_oMax_mem (fun q2 => crossMinFold data u q2 rp) rest _ h

theorem nearest_le_crossMinFold (data : List Pt) (u : UF) (n : ℕ) (p : ℕ)
    (rp : List ℕ) (hrp : ∀ r ∈ rp, r < n) :
    oLE (nearestCrossSq data u n p) (crossMinFold data u p rp) := by
  refine le_crossMinFold data u p rp (fun r hr hc => ?_)
  exact crossMinFold_le_mem data u p (List.range n)
    (List.mem_range.mpr (hrp r hr)) hc

theorem boundsValid_root {data : List Pt} {u : UF} {n : ℕ} {t : DTree}
    (h : BoundsValid data u n t) :
    ∀ p ∈ t.pts, oLE (nearestCrossSq data u n p) t.mnd := by
  cases t with
  | leaf ps s => exact h
  | node s l r => exact h.1

theorem dtRec_boundsValid (data : List Pt) (u : UF) (n : ℕ) :
    ∀ (fuel : ℕ) (Q R : DTree), (∀ r ∈ R.pts, r < n) →
      BoundsValid data u n Q → BoundsValid data u n (dtRec data u fuel Q R).1 := by
  intro fuel
  induction fuel with
  | zero => intro Q R _ hQ; exact hQ
  | succ fuel ih =>
      intro Q R hR hQ
      cases Q with
      | leaf qp qs =>
          cases R with
          | leaf rp rs =>
              rw [dtRec]
              split
              · exact hQ
              · intro p hp
                exact le_oMin (hQ p hp)
                  (oLE_trans (nearest_le_crossMinFold data u n p rp hR)
                    (leafCrossBound_ge data u qp rp hp))
          | node rs rl rr =>
              rw [dtRec]
              split
              · exact hQ
              · dsimp only
                have hRl : ∀ r ∈ rl.pts, r < n := fun r hr =>
                  hR r (by simp [DTree.pts, List.mem_append, hr])
                have hRr : ∀ r ∈ rr.pts, r < n := fun r hr =>
                  hR r (by simp [DTree.pts, List.mem_append, hr])
                split
                · exact ih _ rr hRr (ih _ rl hRl hQ)
                · exact ih _ rl hRl (ih _ rr hRr hQ)
      | node qs ql qr =>
          obtain ⟨hroot, hQl, hQr⟩ := hQ
          cases R with
          | leaf rp rs =>
              rw [dtRec]
              split
              · exact ⟨hroot, hQl, hQr⟩
              · dsimp only
                constructor
                · intro p hp
                  rw [dtRec_pts, dtRec_pts] at hp
                  rcases List.mem_append.mp hp with h | h
                  · refine oLE_trans ?_ (le_oMax_left _ _)
                    exact boundsValid_root (ih _ _ hR hQl) p (by rwa [dtRec_pts])
                  · refine oLE_trans ?_ (le_oMax_right _ _)
                    exact boundsValid_root (ih _ _ hR hQr) p (by rwa [dtRec_pts])
                · exact ⟨ih _ _ hR hQl, ih _ _ hR hQr⟩
          | node rs rl rr =>
              rw [dtRec]
              split
              · exact ⟨hroot, hQl, hQr⟩
              · dsimp only
                have hRl : ∀ r ∈ rl.pts, r < n := fun r hr =>
                  hR r (by simp [DTree.pts, List.mem_append, hr])
                have hRr : ∀ r ∈ rr.pts, r < n := fun r hr =>
                  hR r (by simp [DTree.pts, List.mem_append, hr])
                have hcomp : ∀ (X A B : DTree), (∀ r ∈ A.pts, r < n) →
                    (∀ r ∈ B.pts, r < n) → BoundsValid data u n X →
                    BoundsValid data u n
                      (dtRec data u fuel (dtRec data u fuel X A).1 B).1 :=
                  fun X A B hA hB hX => ih _ B hB (ih _ A hA hX)
                have hcroot : ∀ (X A B : DTree), (∀ r ∈ A.pts, r < n) →
                    (∀ r ∈ B.pts, r < n) → BoundsValid data u n X →
                    ∀ p ∈ X.pts,
                      oLE (nearestCrossSq data u n p)
                        (dtRec data u fuel (dtRec data u fuel X A).1 B).1.mnd := by
                  intro X A B hA hB hX p hp
                  refine boundsValid_root (hcomp X A B hA hB hX) p ?_
                  rw [dtRec_pts, dtRec_pts]; exact hp
                split <;> split <;>
                  refine ⟨fun p hp => ?_,
                    hcomp ql _ _ (by assumption) (by assumption) hQl,
                    hcomp qr _ _ (by assumption) (by assumption) hQr⟩ <;>
                  rcases List.mem_append.mp hp with h | h <;>
                  rw [dtRec_pts, dtRec_pts] at h
                all_goals
                  first
                  | exact oLE_trans
                      (hcroot ql _ _ (by assumption) (by assumption) hQl p h)
                      (le_oMax_left _ _)
                  | exact oLE_trans
                      (hcroot qr _ _ (by assumption) (by assumption) hQr p h)
                      (le_oMax_right _ _)

theorem pairProd_mem {a b : List ℕ} {pr : ℕ × ℕ} :
    pr ∈ pairProd a b ↔ pr.1 ∈ a ∧ pr.2 ∈ b := by
  rcases pr with ⟨x, y⟩
  simp [pairProd]

theorem dtRec_visits_mem (data : List Pt) (u : UF) :
    ∀ (fuel : ℕ) (Q R : DTree), ∀ pr ∈ (dtRec data u fuel Q R).2,
      pr.1 ∈ Q.pts ∧ pr.2 ∈ R.pts := by
  intro fuel
  induction fuel with
  | zero => intro Q R pr hpr; cases hpr
  | succ fuel ih =>
      intro Q R pr hpr
      cases Q with
      | leaf qp qs =>
          cases R with
          | leaf rp rs =>
              rw [dtRec] at hpr
              split at hpr
              · cases hpr
              · exact pairProd_mem.mp hpr
          | node rs rl rr =>
              rw [dtRec] at hpr
              split at hpr
              · cases hpr
              · dsimp only at hpr
                have hsub : ∀ (A B : DTree), A.pts ⊆ (DTree.node rs rl rr).pts → pr ∈
                    ((dtRec data u fuel (DTree.leaf qp qs) A).2 ++
                     (dtRec data u fuel (dtRec data u fuel (DTree.leaf qp qs) A).1 B).2) →
                    B.pts ⊆ (DTree.node rs rl rr).pts →
                    pr.1 ∈ (DTree.leaf qp qs).pts ∧ pr.2 ∈ (DTree.node rs rl rr).pts := by
                  intro A B hA hpr2 hB
                  rcases List.mem_append.mp hpr2 with h | h
                  · obtain ⟨h1, h2⟩ := ih _ _ pr h
                    exact ⟨h1, hA h2⟩
                  · obtain ⟨h1, h2⟩ := ih _ _ pr h
                    rw [dtRec_pts] at h1
                    exact ⟨h1, hB h2⟩
                split at hpr
                · exact hsub rl rr (fun x hx => List.mem_append.mpr (Or.inl hx)) hpr
                    (fun x hx => List.mem_append.mpr (Or.inr hx))
                · exact hsub rr rl (fun x hx => List.mem_append.mpr (Or.inr hx)) hpr
                    (fun x hx => List.mem_append.mpr (Or.inl hx))
      | node qs ql qr =>
          cases R with
          | leaf rp rs =>
              rw [dtRec] at hpr
              split at hpr
              · cases hpr
              · dsimp only at hpr
                rcases List.mem_append.mp hpr with h | h
                · obtain ⟨h1, h2⟩ := ih _ _ pr h
                  exact ⟨List.mem_append.mpr (Or.inl h1), h2⟩
                · obtain ⟨h1, h2⟩ := ih _ _ pr h
                  exact ⟨List.mem_append.mpr (Or.inr h1), h2⟩
          | node rs rl rr =>
              rw [dtRec] at hpr
              split at hpr
              · cases hpr
              · dsimp only at hpr
                have hsub : ∀ (X A B : DTree), X.pts ⊆ (DTree.node qs ql qr).pts →
                    A.pts ⊆ (DTree.node rs rl rr).pts →
                    B.pts ⊆ (DTree.node rs rl rr).pts →
                    pr ∈ ((dtRec data u fuel X A).2 ++
                     (dtRec data u fuel (dtRec data u fuel X A).1 B).2) →
                    pr.1 ∈ (DTree.node qs ql qr).pts ∧ pr.2 ∈ (DTree.node rs rl rr).pts := by
                  intro X A B hX hA hB hpr2
                  rcases List.mem_append.mp hpr2 with h | h
                  · obtain ⟨h1, h2⟩ := ih _ _ pr h
                    exact ⟨hX h1, hA h2⟩
                  · obtain ⟨h1, h2⟩ := ih _ _ pr h
                    rw [dtRec_pts] at h1
                    exact ⟨hX h1, hB h2⟩
                have hl : ql.pts ⊆ (DTree.node qs ql qr).pts :=
                  fun x hx => List.mem_append.mpr (Or.inl hx)
                have hr2 : qr.pts ⊆ (DTree.node qs ql qr).pts :=
                  fun x hx => List.mem_append.mpr (Or.inr hx)
                have hrl : rl.pts ⊆ (DTree.node rs rl rr).pts :=
                  fun x hx => List.mem_append.mpr (Or.inl hx)
                have hrr : rr.pts ⊆ (DTree.node rs rl rr).pts :=
                  fun x hx => List.mem_append.mpr (Or.inr hx)
                rcases List.mem_append.mp hpr with h | h
                all_goals split at h
                · exact hsub ql rl rr hl hrl hrr h
                · exact hsub ql rr rl hl hrr hrl h
                · exact hsub qr rl rr hr2 hrl hrr h
                · exact hsub qr rr rl hr2 hrr hrl h

theorem rectOf_length {data : List Pt} {D : ℕ} {idxs : List ℕ}
    (hne : idxs ≠ []) (hD : ∀ j ∈ idxs, (dataPt data j).length = D) :
    (rectOf data idxs).length = D := by
  cases idxs with
  | nil => cases hne rfl
  | cons i rest =>
      unfold rectOf
      refine rectOf_fold_length rest _ ?_ (fun j hj => hD j (List.mem_cons_of_mem _ hj))
      rw [ptRect_length]; exact hD i (List.mem_cons_self _ _)

theorem tagsValid_root {u : UF} {t : DTree} (h : TagsValid u t)
    (hpos : 0 ≤ t.stat.componentMembership) :
    ∀ p ∈ t.pts, (u.find p : Int) = t.stat.componentMembership := by
  cases t with
  | leaf ps s => exact h hpos
  | node s l r => exact h.1 hpos

theorem DTree.size_pos (t : DTree) : 1 ≤ t.size := by
  cases t with
  | leaf ps s => exact le_refl 1
  | node s l r => simp [DTree.size]; omega

theorem sameCompSkip_false_of {u : UF} {Q R : DTree} {q r : ℕ}
    (hTQ : TagsValid u Q) (hTR : TagsValid u R)
    (hq : q ∈ Q.pts) (hr : r ∈ R.pts) (hcross : u.find q ≠ u.find r) :
    ¬ sameCompSkip Q R = true := by
  intro h
  unfold sameCompSkip at h
  rw [decide_eq_true_iff] at h
  obtain ⟨heq, hpos⟩ := h
  have h1 := tagsValid_root hTQ hpos q hq
  have h2 := tagsValid_root hTR (heq ▸ hpos) r hr
  rw [← heq] at h2
  exact hcross (by exact_mod_cast h1.trans h2.symm)

theorem pruneCheck_false_of {data : List Pt} {u : UF} {n D : ℕ}
    (hdp : ∀ j < n, (dataPt data j).length = D) {Q R : DTree} {q r : ℕ}
    (hq : q ∈ Q.pts) (hr : r ∈ R.pts)
    (hQn : ∀ x ∈ Q.pts, x < n) (hRn : ∀ x ∈ R.pts, x < n)
    (hBV : BoundsValid data u n Q)
    (hbest : oLE (some (sqDistQ (dataPt data q) (dataPt data r)))
      (nearestCrossSq data u n q)) :
    ¬ pruneCheck data Q R = true := by
  intro h
  unfold pruneCheck at h
  rcases hm : Q.stat.maxNeighborDistance with _ | m
  · rw [hm] at h; cases h
  · rw [hm, decide_eq_true_iff] at h
    have hQD : ∀ j ∈ Q.pts, (dataPt data j).length = D := fun j hj => hdp j (hQn j hj)
    have hRD : ∀ j ∈ R.pts, (dataPt data j).length = D := fun j hj => hdp j (hRn j hj)
    have hQne : Q.pts ≠ [] := fun he => by rw [he] at hq; cases hq
    have hRne : R.pts ≠ [] := fun he => by rw [he] at hr; cases hr
    have hmd : minDistSqRect (rectOf data Q.pts) (rectOf data R.pts) ≤
        sqDistQ (dataPt data q) (dataPt data r) :=
      minDistSqRect_le_sqDist (rectOf_mem hQD hq) (rectOf_mem hRD hr)
        (by rw [rectOf_length hQne hQD, rectOf_length hRne hRD])
    have hroot := boundsValid_root hBV q hq
    have hb2 : oLE (some (sqDistQ (dataPt data q) (dataPt data r))) (some m) := by
      refine oLE_trans hbest ?_
      rw [← hm]
      exact hroot
    unfold oLE at hb2
    linarith

theorem dtRec_visits_complete (data : List Pt) (u : UF) (n D : ℕ)
    (hdp : ∀ j < n, (dataPt data j).length = D) :
    ∀ (fuel : ℕ) (Q R : DTree), Q.size + R.size ≤ fuel →
    TagsValid u Q → TagsValid u R → BoundsValid data u n Q →
    (∀ x ∈ Q.pts, x < n) → (∀ x ∈ R.pts, x < n) →
    ∀ q r, q ∈ Q.pts → r ∈ R.pts → u.find q ≠ u.find r →
    oLE (some (sqDistQ (dataPt data q) (dataPt data r)))
      (nearestCrossSq data u n q) →
    (q, r) ∈ (dtRec data u fuel Q R).2 := by
  intro fuel
  induction fuel with
  | zero =>
      intro Q R hsz
      have := Q.size_pos
      have := R.size_pos
      omega
  | succ fuel ih =>
      intro Q R hsz hTQ hTR hBV hQn hRn q r hq hr hcross hbest
      have hguard : ¬ (pruneCheck data Q R = true ∨ sameCompSkip Q R = true) := by
        rintro (h | h)
        · exact pruneCheck_false_of hdp hq hr hQn hRn hBV hbest h
        · exact sameCompSkip_false_of hTQ hTR hq hr hcross h
      have main : ∀ (X A B : DTree), TagsValid u X → BoundsValid data u n X →
          (∀ x ∈ X.pts, x < n) → TagsValid u A → TagsValid u B →
          (∀ x ∈ A.pts, x < n) → (∀ x ∈ B.pts, x < n) →
          X.size + A.size ≤ fuel → X.size + B.size ≤ fuel →
          q ∈ X.pts → (r ∈ A.pts ∨ r ∈ B.pts) →
          (q, r) ∈ (dtRec data u fuel X A).2 ++
            (dtRec data u fuel (dtRec data u fuel X A).1 B).2 := by
        intro X A B hTX hBX hXn hTA hTB hAn hBn hszA hszB hqX hrAB
        rcases hrAB with hrA | hrB
        · exact List.mem_append.mpr (Or.inl
            (ih X A hszA hTX hTA hBX hXn hAn q r hqX hrA hcross hbest))
        · refine List.mem_append.mpr (Or.inr ?_)
          refine ih (dtRec data u fuel X A).1 B ?_ (dtRec_tagsValid data u fuel X A hTX)
            hTB (dtRec_boundsValid data u n fuel X A hAn hBX) ?_ hBn q r ?_ hrB hcross hbest
          · rw [dtRec_size]; exact hszB
          · rw [dtRec_pts]; exact hXn
          · rw [dtRec_pts]; exact hqX
      cases Q with
      | leaf qp qs =>
          cases R with
          | leaf rp rs =>
              rw [dtRec, if_neg hguard]
              exact pairProd_mem.mpr ⟨hq, hr⟩
          | node rs rl rr =>
              simp only [DTree.pts] at hr hRn
              simp only [DTree.size] at hsz
              have hrlsz := rl.size_pos
              have hrrsz := rr.size_pos
              have hqsz : (DTree.leaf qp qs).size = 1 := rfl
              obtain ⟨hTRroot, hTRl, hTRr⟩ := hTR
              have hRln : ∀ x ∈ rl.pts, x < n :=
                fun x hx => hRn x (List.mem_append.mpr (Or.inl hx))
              have hRrn : ∀ x ∈ rr.pts, x < n :=
                fun x hx => hRn x (List.mem_append.mpr (Or.inr hx))
              rw [dtRec, if_neg hguard]
              dsimp only
              split
              · exact main (DTree.leaf qp qs) rl rr hTQ hBV hQn hTRl hTRr hRln hRrn
                  (by simp [DTree.size]; omega) (by simp [DTree.size]; omega)
                  hq (List.mem_append.mp hr)
              · exact main (DTree.leaf qp qs) rr rl hTQ hBV hQn hTRr hTRl hRrn hRln
                  (by simp [DTree.size]; omega) (by simp [DTree.size]; omega)
                  hq (Or.symm (List.mem_append.mp hr))
      | node qs ql qr =>
          obtain ⟨hTQroot, hTQl, hTQr⟩ := hTQ
          obtain ⟨hBroot, hBl, hBr⟩ := hBV
          simp only [DTree.pts] at hq hQn
          simp only [DTree.size] at hsz
          have hqlsz := ql.size_pos
          have hqrsz := qr.size_pos
          have hQln : ∀ x ∈ ql.pts, x < n :=
            fun x hx => hQn x (List.mem_append.mpr (Or.inl hx))
          have hQrn : ∀ x ∈ qr.pts, x < n :=
            fun x hx => hQn x (List.mem_append.mpr (Or.inr hx))
          cases R with
          | leaf rp rs =>
              rw [dtRec, if_neg hguard]
              dsimp only
              have hRsz : (DTree.leaf rp rs).size = 1 := rfl
              rcases List.mem_append.mp hq with hql | hqr
              · exact List.mem_append.mpr (Or.inl
                  (ih ql _ (by omega) hTQl hTR hBl hQln hRn q r hql hr hcross hbest))
              · exact List.mem_append.mpr (Or.inr
                  (ih qr _ (by omega) hTQr hTR hBr hQrn hRn q r hqr hr hcross hbest))
          | node rs rl rr =>
              obtain ⟨hTRroot, hTRl, hTRr⟩ := hTR
              simp only [DTree.pts] at hr hRn
              have hrlsz := rl.size_pos
              have hrrsz := rr.size_pos
              simp only [DTree.size] at hsz
              have hRln : ∀ x ∈ rl.pts, x < n :=
                fun x hx => hRn x (List.mem_append.mpr (Or.inl hx))
              have hRrn : ∀ x ∈ rr.pts, x < n :=
                fun x hx => hRn x (List.mem_append.mpr (Or.inr hx))
              rw [dtRec, if_neg hguard]
              dsimp only
              rcases List.mem_append.mp hq with hql | hqr
              · refine List.mem_append.mpr (Or.inl ?_)
                split
                · exact main ql rl rr hTQl hBl hQln hTRl hTRr hRln hRrn
                    (by omega) (by omega) hql (List.mem_append.mp hr)
                · exact main ql rr rl hTQl hBl hQln hTRr hTRl hRrn hRln
                    (by omega) (by omega) hql (Or.symm (List.mem_append.mp hr))
              · refine List.mem_append.mpr (Or.inr ?_)
                split
                · exact main qr rl rr hTQr hBr hQrn hTRl hTRr hRln hRrn
                    (by omega) (by omega) hqr (List.mem_append.mp hr)
                · exact main qr rr rl hTQr hBr hQrn hTRr hTRl hRrn hRln
                    (by omega) (by omega) hqr (Or.symm (List.mem_append.mp hr))

theorem getD_eq_getElem {α : Type} (l : List α) (d : α) {i : ℕ} (h : i < l.length) :
    l.getD i d = l[i] := by
  simp [List.getD, List.getElem?_eq_getElem h]

theorem getD_set_self {α : Type} (l : List α) (d a : α) {i : ℕ} (h : i < l.length) :
    (l.set i a).getD i d = a := by
  rw [getD_eq_getElem _ _ (by simpa using h)]
  exact List.getElem_set_self _

theorem getD_set_ne {α : Type} (l : List α) (d a : α) {i c : ℕ} (h : c ≠ i) :
    (l.set i a).getD c d = l.getD c d := by
  simp [List.getD, List.getElem?_set_ne (Ne.symm h)]

theorem UF.find_init {n i : ℕ} (hi : i < n) : (UF.init n).find i = i := by
  have h : i < (List.range n).length := by simpa using hi
  show (List.range n).getD i 0 = i
  rw [getD_eq_getElem _ _ h, List.getElem_range]

theorem UF.WF_init (n : ℕ) : (UF.init n).WF n := by
  refine ⟨by simp [UF.init], fun i hi => ?_, fun i hi => ?_⟩
  · rw [UF.find_init hi]; exact hi
  · rw [UF.find_init hi, UF.find_init hi]

theorem list_toFinset_map (f : ℕ → ℕ) (l : List ℕ) :
    (l.map f).toFinset = l.toFinset.image f := by
  ext x; simp

theorem UF.numComponents_init (n : ℕ) : (UF.init n).numComponents = n := by
  have h : (List.range n).toFinset = Finset.range n := by ext x; simp
  show (List.range n).toFinset.card = n
  rw [h, Finset.card_range]

theorem UF.union_find {u : UF} {n : ℕ} (hWF : u.WF n) (a b : ℕ) {i : ℕ} (hi : i < n) :
    (u.union a b).find i =
      if u.find i = u.find b then u.find a else u.find i := by
  have hlen : u.rep.length = n := hWF.1
  have hi2 : i < u.rep.length := by omega
  simp only [UF.union, UF.find]
  rw [getD_eq_getElem _ _ (by simpa using hi2), List.getElem_map,
    getD_eq_getElem _ _ hi2]

theorem UF.union_WF {u : UF} {n : ℕ} (hWF : u.WF n) {a b : ℕ}
    (ha : a < n) (hb : b < n) : (u.union a b).WF n := by
  obtain ⟨hlen, hran, hid⟩ := hWF
  have hWF : u.WF n := ⟨hlen, hran, hid⟩
  refine ⟨by simp [UF.union, hlen], fun i hi => ?_, fun i hi => ?_⟩
  · rw [UF.union_find hWF a b hi]
    split
    · exact hran a ha
    · exact hran i hi
  · rw [UF.union_find hWF a b hi]
    split
    · rw [UF.union_find hWF a b (hran a ha), hid a ha]
      split
      · rfl
      · rfl
    · rename_i hne
      rw [UF.union_find hWF a b (hran i hi), hid i hi]
      rw [if_neg hne]

theorem UF.union_mono {u : UF} {n : ℕ} (hWF : u.WF n) (a b : ℕ) {i j : ℕ}
    (hi : i < n) (hj : j < n) (h : u.find i = u.find j) :
    (u.union a b).find i = (u.union a b).find j := by
  rw [UF.union_find hWF a b hi, UF.union_find hWF a b hj, h]

theorem UF.union_connects {u : UF} {n : ℕ} (hWF : u.WF n) {a b : ℕ}
    (ha : a < n) (hb : b < n) :
    (u.union a b).find a = (u.union a b).find b := by
  rw [UF.union_find hWF a b ha, UF.union_find hWF a b hb, if_pos rfl]
  split
  · rfl
  · rfl

theorem UF.mem_rep_of_lt {u : UF} {n : ℕ} (hWF : u.WF n) {i : ℕ} (hi : i < n) :
    u.find i ∈ u.rep := by
  have hlen := hWF.1
  have : i < u.rep.length := by omega
  rw [UF.find, getD_eq_getElem _ _ this]
  exact List.getElem_mem _

theorem UF.union_numComponents {u : UF} {n : ℕ} (hWF : u.WF n) {a b : ℕ}
    (ha : a < n) (hb : b < n) (hne : u.find a ≠ u.find b) :
    (u.union a b).numComponents + 1 = u.numComponents := by
  have hfa : u.find a ∈ u.rep.toFinset := List.mem_toFinset.mpr (UF.mem_rep_of_lt hWF ha)
  have hfb : u.find b ∈ u.rep.toFinset := List.mem_toFinset.mpr (UF.mem_rep_of_lt hWF hb)
  have himg : (u.union a b).rep.toFinset =
      u.rep.toFinset.image (fun x => if x = u.find b then u.find a else x) := by
    show (u.rep.map _).toFinset = _
    rw [list_toFinset_map]
  have herase : u.rep.toFinset.image (fun x => if x = u.find b then u.find a else x) =
      u.rep.toFinset.erase (u.find b) := by
    ext x
    simp only [Finset.mem_image, Finset.mem_erase]
    constructor
    · rintro ⟨y, hy, rfl⟩
      by_cases hyb : y = u.find b
      · rw [if_pos hyb]
        exact ⟨Ne.symm (fun h => hne h.symm), hfa⟩
      · rw [if_neg hyb]
        exact ⟨hyb, hy⟩
    · rintro ⟨hx, hx2⟩
      exact ⟨x, hx2, by rw [if_neg hx]⟩
  rw [UF.numComponents, UF.numComponents, himg, herase,
    Finset.card_erase_of_mem hfb]
  have : 0 < u.rep.toFinset.card := Finset.card_pos.mpr ⟨_, hfb⟩
  omega

theorem sqDistQ_comm (p q : Pt) : sqDistQ p q = sqDistQ q p := by
  unfold sqDistQ
  rw [List.zipWith_comm_of_comm]
  intro x y; ring

theorem edgesRel_mono {es es2 : List IEdge} (h : ∀ e ∈ es, e ∈ es2) {x y : ℕ}
    (hr : edgesRel es x y) : edgesRel es2 x y := by
  rcases hr with ⟨e, he, hx⟩ | ⟨e, he, hx⟩
  · exact Or.inl ⟨e, h e he, hx⟩
  · exact Or.inr ⟨e, h e he, hx⟩

theorem edgesRel_last (es : List IEdge) (e : IEdge) :
    edgesRel (es ++ [e]) e.lesser e.greater :=
  Or.inl ⟨e, List.mem_append.mpr (Or.inr (List.mem_singleton_self e)), rfl, rfl⟩

theorem edgesRel_pair (es : List IEdge) (a b : ℕ) (d : ℤ) :
    edgesRel (es ++ [⟨min a b, max a b, d⟩]) a b := by
  rcases le_total a b with h | h
  · rw [min_eq_left h, max_eq_right h] at *
    exact Or.inl ⟨⟨a, b, d⟩, List.mem_append.mpr (Or.inr (List.mem_singleton_self _)),
      rfl, rfl⟩
  · rw [min_eq_right h, max_eq_left h] at *
    exact Or.inr ⟨⟨b, a, d⟩, List.mem_append.mpr (Or.inr (List.mem_singleton_self _)),
      rfl, rfl⟩

theorem mergeStep_cases (cs : CandState) (st : UF × List IEdge) (c : ℕ) :
    (cs.getD c none = none ∧ mergeStep cs st c = st) ∨
    (∃ cand : Cand, cs.getD c none = some cand ∧
      st.1.find cand.inPoint = st.1.find cand.outPoint ∧ mergeStep cs st c = st) ∨
    (∃ cand : Cand, cs.getD c none = some cand ∧
      st.1.find cand.inPoint ≠ st.1.find cand.outPoint ∧
      mergeStep cs st c = (st.1.union cand.inPoint cand.outPoint,
        st.2 ++ [⟨min cand.inPoint cand.outPoint,
                  max cand.inPoint cand.outPoint, cand.dist⟩])) := by
  unfold mergeStep
  rcases hc : cs.getD c none with _ | cand
  · exact Or.inl ⟨rfl, rfl⟩
  · by_cases hf : st.1.find cand.inPoint = st.1.find cand.outPoint
    · refine Or.inr (Or.inl ⟨cand, rfl, hf, ?_⟩)
      show (if st.1.find cand.inPoint = st.1.find cand.outPoint then st else _) = st
      rw [if_pos hf]
    · refine Or.inr (Or.inr ⟨cand, rfl, hf, ?_⟩)
      show (if st.1.find cand.inPoint = st.1.find cand.outPoint then st else _) = _
      rw [if_neg hf]

theorem mergeFold_WF {n : ℕ} {cs : CandState}
    (hran : ∀ c, ∀ cand : Cand, cs.getD c none = some cand →
      cand.inPoint < n ∧ cand.outPoint < n) :
    ∀ (l : List ℕ) (st : UF × List IEdge), st.1.WF n →
      ((l.foldl (mergeStep cs) st).1).WF n := by
  intro l
  induction l with
  | nil => intro st h; exact h
  | cons c rest ih =>
      intro st h
      simp only [List.foldl_cons]
      refine ih _ ?_
      rcases mergeStep_cases cs st c with ⟨_, heq⟩ | ⟨cand, hc, _, heq⟩ | ⟨cand, hc, _, heq⟩
      · rw [heq]; exact h
      · rw [heq]; exact h
      · rw [heq]; exact UF.union_WF h (hran c cand hc).1 (hran c cand hc).2

theorem mergeFold_mono {n : ℕ} {cs : CandState}
    (hran : ∀ c, ∀ cand : Cand, cs.getD c none = some cand →
      cand.inPoint < n ∧ cand.outPoint < n) :
    ∀ (l : List ℕ) (st : UF × List IEdge), st.1.WF n →
      ∀ i j, i < n → j < n → st.1.find i = st.1.find j →
      ((l.foldl (mergeStep cs) st).1).find i = ((l.foldl (mergeStep cs) st).1).find j := by
  intro l
  induction l with
  | nil => intro st _ i j _ _ h; exact h
  | cons c rest ih =>
      intro st hWF i j hi hj h
      simp only [List.foldl_cons]
      rcases mergeStep_cases cs st c with ⟨_, heq⟩ | ⟨cand, hc, _, heq⟩ | ⟨cand, hc, _, heq⟩
      · rw [heq]; exact ih _ hWF i j hi hj h
      · rw [heq]; exact ih _ hWF i j hi hj h
      · rw [heq]
        exact ih _ (UF.union_WF hWF (hran c cand hc).1 (hran c cand hc).2) i j hi hj
          (UF.union_mono hWF _ _ hi hj h)

theorem mergeFold_connects {n : ℕ} {cs : CandState}
    (hran : ∀ c, ∀ cand : Cand, cs.getD c none = some cand →
      cand.inPoint < n ∧ cand.outPoint < n) :
    ∀ (l : List ℕ) (st : UF × List IEdge), st.1.WF n →
      ∀ c ∈ l, ∀ cand : Cand, cs.getD c none = some cand →
      ((l.foldl (mergeStep cs) st).1).find cand.inPoint =
        ((l.foldl (mergeStep cs) st).1).find cand.outPoint := by
  intro l
  induction l with
  | nil => intro st _ c hc; cases hc
  | cons c0 rest ih =>
      intro st hWF c hc cand hcand
      simp only [List.foldl_cons]
      have hstepWF : (mergeStep cs st c0).1.WF n := by
        rcases mergeStep_cases cs st c0 with ⟨_, heq⟩ | ⟨cand0, hc0, _, heq⟩ |
          ⟨cand0, hc0, _, heq⟩
        · rw [heq]; exact hWF
        · rw [heq]; exact hWF
        · rw [heq]; exact UF.union_WF hWF (hran c0 cand0 hc0).1 (hran c0 cand0 hc0).2
      rcases List.mem_cons.mp hc with h | h
      · subst h
        have hin := (hran c cand hcand).1
        have hout := (hran c cand hcand).2
        have hstep : (mergeStep cs st c).1.find cand.inPoint =
            (mergeStep cs st c).1.find cand.outPoint := by
          rcases mergeStep_cases cs st c with ⟨hc0, _⟩ | ⟨cand0, hc0, hf, heq⟩ |
            ⟨cand0, hc0, hf, heq⟩
          · rw [hcand] at hc0; cases hc0
          · rw [hcand] at hc0
            injection hc0 with hc0
            subst hc0
            rw [heq]; exact hf
          · rw [hcand] at hc0
            injection hc0 with hc0
            subst hc0
            rw [heq]; exact UF.union_connects hWF hin hout
        exact mergeFold_mono hran rest _ hstepWF _ _ hin hout hstep
      · exact ih _ hstepWF c h cand hcand

theorem mergeFold_map {cs : CandState} :
    ∀ (l : List ℕ) (st : UF × List IEdge),
      ∃ g : ℕ → ℕ, ((l.foldl (mergeStep cs) st).1).rep = st.1.rep.map g := by
  intro l
  induction l with
  | nil => intro st; exact ⟨id, (List.map_id _).symm⟩
  | cons c rest ih =>
      intro st
      simp only [List.foldl_cons]
      rcases mergeStep_cases cs st c with ⟨_, heq⟩ | ⟨cand, hc, _, heq⟩ | ⟨cand, hc, _, heq⟩
      · rw [heq]; exact ih st
      · rw [heq]; exact ih st
      · rw [heq]
        obtain ⟨g, hg⟩ := ih (st.1.union cand.inPoint cand.outPoint,
          st.2 ++ [⟨min cand.inPoint cand.outPoint,
                    max cand.inPoint cand.outPoint, cand.dist⟩])
        refine ⟨g ∘ (fun x => if x = st.1.find cand.outPoint
          then st.1.find cand.inPoint else x), ?_⟩
        rw [hg]
        show (st.1.rep.map _).map g = _
        rw [List.map_map]

theorem mergeFold_count {n : ℕ} {cs : CandState}
    (hran : ∀ c, ∀ cand : Cand, cs.getD c none = some cand →
      cand.inPoint < n ∧ cand.outPoint < n) :
    ∀ (l : List ℕ) (st : UF × List IEdge), st.1.WF n →
      ((l.foldl (mergeStep cs) st).1).numComponents +
        ((l.foldl (mergeStep cs) st).2).length =
      st.1.numComponents + st.2.length := by
  intro l
  induction l with
  | nil => intro st _; rfl
  | cons c rest ih =>
      intro st hWF
      simp only [List.foldl_cons]
      rcases mergeStep_cases cs st c with ⟨_, heq⟩ | ⟨cand, hc, _, heq⟩ |
        ⟨cand, hc, hne, heq⟩
      · rw [heq]; exact ih _ hWF
      · rw [heq]; exact ih _ hWF
      · have hcount := UF.union_numComponents hWF (hran c cand hc).1 (hran c cand hc).2 hne
        rw [heq]
        have hrest := ih (st.1.union cand.inPoint cand.outPoint,
          st.2 ++ [⟨min cand.inPoint cand.outPoint,
                    max cand.inPoint cand.outPoint, cand.dist⟩])
          (UF.union_WF hWF (hran c cand hc).1 (hran c cand hc).2)
        rw [hrest]
        simp only [List.length_append, List.length_singleton]
        omega

theorem mergeFold_edgesWF {data : List Pt} {n : ℕ} {cs : CandState}
    (hcs : ∀ c, ∀ cand : Cand, cs.getD c none = some cand →
      cand.inPoint < n ∧ cand.outPoint < n ∧
      cand.dist = sqDistQ (dataPt data cand.inPoint) (dataPt data cand.outPoint)) :
    ∀ (l : List ℕ) (st : UF × List IEdge), EdgesWF data n st.2 →
      EdgesWF data n ((l.foldl (mergeStep cs) st).2) := by
  intro l
  induction l with
  | nil => intro st h; exact h
  | cons c rest ih =>
      intro st h
      simp only [List.foldl_cons]
      rcases mergeStep_cases cs st c with ⟨_, heq⟩ | ⟨cand, hc, _, heq⟩ |
        ⟨cand, hc, hne, heq⟩
      · rw [heq]; exact ih _ h
      · rw [heq]; exact ih _ h
      · rw [heq]
        refine ih _ ?_
        intro e he
        rcases List.mem_append.mp he with h2 | h2
        · exact h e h2
        · rw [List.mem_singleton] at h2
          subst h2
          obtain ⟨hin, hout, hd⟩ := hcs c cand hc
          have hab : cand.inPoint ≠ cand.outPoint := fun habs => hne (by rw [habs])
          refine ⟨min_lt_max.mpr hab, ?_, ?_⟩
          · simp only [max_lt_iff]; exact ⟨hin, hout⟩
          · rcases le_total cand.inPoint cand.outPoint with hord | hord
            · simp only [min_eq_left hord, max_eq_right hord]; exact hd
            · simp only [min_eq_right hord, max_eq_left hord]
              rw [hd, sqDistQ_comm]

theorem mergeFold_respects {n : ℕ} {cs : CandState}
    (hran : ∀ c, ∀ cand : Cand, cs.getD c none = some cand →
      cand.inPoint < n ∧ cand.outPoint < n) :
    ∀ (l : List ℕ) (st : UF × List IEdge), st.1.WF n →
      (∀ i j, i < n → j < n → st.1.find i = st.1.find j →
        Relation.EqvGen (edgesRel st.2) i j) →
      ∀ i j, i < n → j < n →
        ((l.foldl (mergeStep cs) st).1).find i = ((l.foldl (mergeStep cs) st).1).find j →
        Relation.EqvGen (edgesRel ((l.foldl (mergeStep cs) st).2)) i j := by
  intro l
  induction l with
  | nil => intro st _ hR i j hi hj h; exact hR i j hi hj h
  | cons c rest ih =>
      intro st hWF hR i j hi hj h
      simp only [List.foldl_cons] at h ⊢
      rcases mergeStep_cases cs st c with ⟨_, heq⟩ | ⟨cand, hc, _, heq⟩ |
        ⟨cand, hc, hne, heq⟩
      · rw [heq] at h ⊢; exact ih _ hWF hR i j hi hj h
      · rw [heq] at h ⊢; exact ih _ hWF hR i j hi hj h
      · rw [heq] at h ⊢
        obtain ⟨ha, hb⟩ := hran c cand hc
        set a := cand.inPoint
        set b := cand.outPoint
        refine ih _ (UF.union_WF hWF ha hb) ?_ i j hi hj h
        intro i2 j2 hi2 hj2 h2
        have hmono : ∀ x y, x < n → y < n → Relation.EqvGen (edgesRel st.2) x y →
            Relation.EqvGen (edgesRel (st.2 ++
              [⟨min a b, max a b, cand.dist⟩])) x y := by
          intro x y _ _ hxy
          refine Relation.EqvGen.mono ?_ hxy
          intro p q hpq
          exact edgesRel_mono (fun e he => List.mem_append.mpr (Or.inl he)) hpq
        have hnew : Relation.EqvGen (edgesRel (st.2 ++
            [⟨min a b, max a b, cand.dist⟩])) a b :=
          Relation.EqvGen.rel _ _ (edgesRel_pair st.2 a b cand.dist)
        rw [UF.union_find hWF a b hi2, UF.union_find hWF a b hj2] at h2
        by_cases hib : st.1.find i2 = st.1.find b <;>
          by_cases hjb : st.1.find j2 = st.1.find b
        · exact hmono i2 j2 hi2 hj2 (hR i2 j2 hi2 hj2 (hib.trans hjb.symm))
        · rw [if_pos hib, if_neg hjb] at h2
          have h3 : st.1.find j2 = st.1.find a := h2.symm
          have e1 := hR i2 b hi2 hb hib
          have e2 := hR a j2 ha hj2 h3.symm
          exact Relation.EqvGen.trans _ _ _ (hmono i2 b hi2 hb e1)
            (Relation.EqvGen.trans _ _ _ (Relation.EqvGen.symm _ _ hnew)
              (hmono a j2 ha hj2 e2))
        · rw [if_neg hib, if_pos hjb] at h2
          have e1 := hR i2 a hi2 ha h2
          have e2 := hR b j2 hb hj2 hjb.symm
          exact Relation.EqvGen.trans _ _ _ (hmono i2 a hi2 ha e1)
            (Relation.EqvGen.trans _ _ _ hnew (hmono b j2 hb hj2 e2))
        · rw [if_neg hib, if_neg hjb] at h2
          exact hmono i2 j2 hi2 hj2 (hR i2 j2 hi2 hj2 h2)

theorem mem_toFinset_lt {u : UF} {n : ℕ} (hWF : u.WF n) {c : ℕ}
    (hc : c ∈ u.rep.toFinset) : c < n := by
  rw [List.mem_toFinset] at hc
  obtain ⟨k, hk, hck⟩ := List.mem_iff_getElem.mp hc
  have hkn : k < n := by have := hWF.1; omega
  have : u.find k = c := by rw [UF.find, getD_eq_getElem _ _ hk]; exact hck
  rw [← this]
  exact hWF.2.1 k hkn

theorem find_of_rep_map {u u2 : UF} {g : ℕ → ℕ} {n : ℕ} (hlen : u.rep.length = n)
    (h : u2.rep = u.rep.map g) {i : ℕ} (hi : i < n) : u2.find i = g (u.find i) := by
  have hi2 : i < u.rep.length := by omega
  have hi3 : i < u2.rep.length := by rw [h, List.length_map]; omega
  rw [UF.find, UF.find, getD_eq_getElem _ _ hi3, getD_eq_getElem _ _ hi2]
  simp only [h, List.getElem_map]

theorem mergeAll_halves {n : ℕ} {cs : CandState} {u : UF} {es : List IEdge}
    (hWF : u.WF n)
    (hran : ∀ c, ∀ cand : Cand, cs.getD c none = some cand →
      cand.inPoint < n ∧ cand.outPoint < n)
    (hall : ∀ c ∈ u.rep.toFinset, ∃ cand : Cand, cs.getD c none = some cand ∧
      u.find cand.inPoint = c ∧ u.find cand.outPoint ≠ c) :
    2 * (mergeAll n cs u es).1.numComponents ≤ u.numComponents := by
  obtain ⟨g, hg⟩ := @mergeFold_map cs (List.range n) (u, es)
  have hfind2 : ∀ i, i < n → (mergeAll n cs u es).1.find i = g (u.find i) :=
    fun i hi => find_of_rep_map hWF.1 hg hi
  have himg : (mergeAll n cs u es).1.rep.toFinset = u.rep.toFinset.image g := by
    show ((List.range n).foldl (mergeStep cs) (u, es)).1.rep.toFinset = _
    rw [hg, list_toFinset_map]
  have hpartner : ∀ c ∈ u.rep.toFinset, ∃ c2 ∈ u.rep.toFinset, c2 ≠ c ∧ g c2 = g c := by
    intro c hcS
    obtain ⟨cand, hcand, hin, hout⟩ := hall c hcS
    have hcn : c < n := mem_toFinset_lt hWF hcS
    have hinlt := (hran c cand hcand).1
    have houtlt := (hran c cand hcand).2
    have hconn := mergeFold_connects hran (List.range n) (u, es) hWF c
      (List.mem_range.mpr hcn) cand hcand
    have h1 : g (u.find cand.inPoint) = g (u.find cand.outPoint) := by
      rw [← hfind2 _ hinlt, ← hfind2 _ houtlt]
      exact hconn
    refine ⟨u.find cand.outPoint, List.mem_toFinset.mpr (UF.mem_rep_of_lt hWF houtlt),
      hout, ?_⟩
    rw [← h1, hin]
  have hmap : ∀ c ∈ u.rep.toFinset, g c ∈ u.rep.toFinset.image g :=
    fun c hc => Finset.mem_image.mpr ⟨c, hc, rfl⟩
  have hsum := Finset.card_eq_sum_card_fiberwise hmap
  have hfiber : ∀ t ∈ u.rep.toFinset.image g,
      2 ≤ (u.rep.toFinset.filter (fun x => g x = t)).card := by
    intro t ht
    obtain ⟨c, hcS, hct⟩ := Finset.mem_image.mp ht
    obtain ⟨c2, hc2S, hne, hgc2⟩ := hpartner c hcS
    have h1 : c ∈ u.rep.toFinset.filter (fun x => g x = t) :=
      Finset.mem_filter.mpr ⟨hcS, hct⟩
    have h2 : c2 ∈ u.rep.toFinset.filter (fun x => g x = t) :=
      Finset.mem_filter.mpr ⟨hc2S, by rw [hgc2, hct]⟩
    have := Finset.one_lt_card.mpr ⟨c, h1, c2, h2, (Ne.symm hne)⟩
    omega
  have htotal : 2 * (u.rep.toFinset.image g).card ≤ u.rep.toFinset.card := by
    rw [hsum]
    calc 2 * (u.rep.toFinset.image g).card =
        ∑ _t ∈ u.rep.toFinset.image g, 2 := by
          rw [Finset.sum_const, smul_eq_mul, mul_comm]
      _ ≤ ∑ t ∈ u.rep.toFinset.image g,
            (u.rep.toFinset.filter (fun x => g x = t)).card :=
          Finset.sum_le_sum hfiber
  rw [UF.numComponents, UF.numComponents, himg]
  exact htotal

theorem initCands_getD (n c : ℕ) : (initCands n).getD c none = none := by
  unfold initCands
  rcases lt_or_ge c n with h | h
  · rw [getD_eq_getElem _ _ (by simpa using h)]
    simp
  · rw [List.getD_eq_default]
    rw [List.length_replicate]
    omega

theorem initCands_length (n : ℕ) : (initCands n).length = n := List.length_replicate _ _

theorem visitPair_length (data : List Pt) (u : UF) (s : CandState) (pr : ℕ × ℕ) :
    (visitPair data u s pr).length = s.length := by
  unfold visitPair updateCand
  split
  · split
    · exact List.length_set _ _ _
    · split
      · exact List.length_set _ _ _
      · rfl
  · rfl

theorem applyVisits_length (data : List Pt) (u : UF) (l : List (ℕ × ℕ)) :
    ∀ (s : CandState), (applyVisits data u s l).length = s.length := by
  induction l with
  | nil => intro s; rfl
  | cons pr rest ih =>
      intro s
      show (applyVisits data u (visitPair data u s pr) rest).length = s.length
      rw [ih, visitPair_length]

theorem visitPair_getD_ne (data : List Pt) (u : UF) (s : CandState) (pr : ℕ × ℕ)
    {c : ℕ} (hc : c ≠ u.find pr.1) :
    (visitPair data u s pr).getD c none = s.getD c none := by
  unfold visitPair updateCand
  split
  · split
    · exact getD_set_ne _ _ _ hc
    · split
      · exact getD_set_ne _ _ _ hc
      · rfl
  · rfl

theorem visitPair_getD_none (data : List Pt) (u : UF) (s : CandState) (q r : ℕ)
    (hcross : u.find q ≠ u.find r) (hlt : u.find q < s.length)
    (hs : s.getD (u.find q) none = none) :
    (visitPair data u s (q, r)).getD (u.find q) none =
      some ⟨q, r, sqDistQ (dataPt data q) (dataPt data r)⟩ := by
  simp only [visitPair, updateCand, hs, if_pos hcross]
  exact getD_set_self _ _ _ hlt

theorem visitPair_getD_some (data : List Pt) (u : UF) (s : CandState) (q r : ℕ)
    (hcross : u.find q ≠ u.find r) (hlt : u.find q < s.length)
    {old : Cand} (hs : s.getD (u.find q) none = some old) :
    (visitPair data u s (q, r)).getD (u.find q) none =
      if sqDistQ (dataPt data q) (dataPt data r) < old.dist then
        some ⟨q, r, sqDistQ (dataPt data q) (dataPt data r)⟩
      else some old := by
  simp only [visitPair, updateCand, hs, if_pos hcross]
  split
  · exact getD_set_self _ _ _ hlt
  · exact hs

theorem getD_some_lt {s : CandState} {c : ℕ} {cand : Cand}
    (h : s.getD c none = some cand) : c < s.length := by
  by_contra hge
  rw [List.getD_eq_default _ _ (by omega)] at h
  cases h

theorem visitPair_not_cross (data : List Pt) (u : UF) (s : CandState) (pr : ℕ × ℕ)
    (h : ¬ u.find pr.1 ≠ u.find pr.2) : visitPair data u s pr = s := by
  unfold visitPair
  rw [if_neg h]

theorem visitPair_candsWF {data : List Pt} {u : UF} {n : ℕ} (hWF : u.WF n)
    {s : CandState} {pr : ℕ × ℕ} (h1 : pr.1 < n) (h2 : pr.2 < n)
    (hs : CandsWF data u n s) : CandsWF data u n (visitPair data u s pr) := by
  obtain ⟨hlen, hslots⟩ := hs
  refine ⟨by rw [visitPair_length, hlen], fun c cand hc => ?_⟩
  by_cases hcne : c ≠ u.find pr.1
  · rw [visitPair_getD_ne data u s pr hcne] at hc
    exact hslots c cand hc
  · push_neg at hcne
    subst hcne
    by_cases hcross : u.find pr.1 ≠ u.find pr.2
    · rcases pr with ⟨q, r⟩
      have hlt : u.find q < s.length := by rw [hlen]; exact hWF.2.1 q h1
      rcases hold : s.getD (u.find q) none with _ | old
      · rw [visitPair_getD_none data u s q r hcross hlt hold] at hc
        injection hc with hc
        subst hc
        exact ⟨rfl, hcross, rfl, h1, h2⟩
      · rw [visitPair_getD_some data u s q r hcross hlt hold] at hc
        split at hc
        · injection hc with hc
          subst hc
          exact ⟨rfl, hcross, rfl, h1, h2⟩
        · injection hc with hc
          subst hc
          exact hslots _ _ hold
    · rw [visitPair_not_cross data u s pr hcross] at hc
      exact hslots _ cand hc

theorem applyVisits_candsWF {data : List Pt} {u : UF} {n : ℕ} (hWF : u.WF n) :
    ∀ (L : List (ℕ × ℕ)) (s : CandState), (∀ pr ∈ L, pr.1 < n ∧ pr.2 < n) →
      CandsWF data u n s → CandsWF data u n (applyVisits data u s L) := by
  intro L
  induction L with
  | nil => intro s _ hs; exact hs
  | cons pr rest ih =>
      intro s hL hs
      show CandsWF data u n (applyVisits data u (visitPair data u s pr) rest)
      exact ih _ (fun x hx => hL x (List.mem_cons_of_mem _ hx))
        (visitPair_candsWF hWF (hL pr (List.mem_cons_self _ _)).1
          (hL pr (List.mem_cons_self _ _)).2 hs)

theorem visitPair_mono_slot (data : List Pt) (u : UF) (s : CandState) (pr : ℕ × ℕ)
    {c : ℕ} {cand : Cand} (hc : s.getD c none = some cand) :
    ∃ cand2 : Cand, (visitPair data u s pr).getD c none = some cand2 ∧
      cand2.dist ≤ cand.dist := by
  by_cases hcne : c ≠ u.find pr.1
  · exact ⟨cand, by rw [visitPair_getD_ne data u s pr hcne]; exact hc, le_refl _⟩
  · push_neg at hcne
    subst hcne
    by_cases hcross : u.find pr.1 ≠ u.find pr.2
    · rcases pr with ⟨q, r⟩
      rw [visitPair_getD_some data u s q r hcross (getD_some_lt hc) hc]
      split
      · rename_i hlt2
        exact ⟨_, rfl, le_of_lt hlt2⟩
      · exact ⟨cand, rfl, le_refl _⟩
    · rw [visitPair_not_cross data u s pr hcross]
      exact ⟨cand, hc, le_refl _⟩

theorem applyVisits_mono_slot (data : List Pt) (u : UF) :
    ∀ (L : List (ℕ × ℕ)) (s : CandState) {c : ℕ} {cand : Cand},
      s.getD c none = some cand →
      ∃ cand2 : Cand, (applyVisits data u s L).getD c none = some cand2 ∧
        cand2.dist ≤ cand.dist := by
  intro L
  induction L with
  | nil => intro s c cand hc; exact ⟨cand, hc, le_refl _⟩
  | cons pr rest ih =>
      intro s c cand hc
      obtain ⟨cand2, hc2, hle⟩ := visitPair_mono_slot data u s pr hc
      obtain ⟨cand3, hc3, hle3⟩ := ih _ hc2
      exact ⟨cand3, hc3, le_trans hle3 hle⟩

theorem visitPair_fills (data : List Pt) (u : UF) (s : CandState) (q r : ℕ)
    (hcross : u.find q ≠ u.find r) (hlt : u.find q < s.length) :
    ∃ cand : Cand, (visitPair data u s (q, r)).getD (u.find q) none = some cand ∧
      cand.dist ≤ sqDistQ (dataPt data q) (dataPt data r) := by
  rcases hold : s.getD (u.find q) none with _ | old
  · rw [visitPair_getD_none data u s q r hcross hlt hold]
    exact ⟨_, rfl, le_refl _⟩
  · rw [visitPair_getD_some data u s q r hcross hlt hold]
    split
    · exact ⟨_, rfl, le_refl _⟩
    · rename_i hnot
      exact ⟨old, rfl, le_of_not_lt hnot⟩

theorem applyVisits_fills (data : List Pt) (u : UF) {n : ℕ} (hWF : u.WF n) :
    ∀ (L : List (ℕ × ℕ)) (s : CandState) {q r : ℕ}, s.length = n →
      (q, r) ∈ L → q < n → u.find q ≠ u.find r →
      ∃ cand : Cand, (applyVisits data u s L).getD (u.find q) none = some cand ∧
        cand.dist ≤ sqDistQ (dataPt data q) (dataPt data r) := by
  intro L
  induction L with
  | nil => intro s q r _ hm; cases hm
  | cons pr rest ih =>
      intro s q r hlen hm hq hcross
      rcases List.mem_cons.mp hm with h | h
      · subst h
        obtain ⟨cand, hc, hle⟩ := visitPair_fills data u s q r hcross
          (by rw [hlen]; exact hWF.2.1 q hq)
        obtain ⟨cand2, hc2, hle2⟩ := applyVisits_mono_slot data u rest _ hc
        exact ⟨cand2, hc2, le_trans hle2 hle⟩
      · exact ih _ (by rw [visitPair_length]; exact hlen) h hq hcross

theorem candB_preserved {data : List Pt} {u : UF} {n : ℕ} {c q0 r0 : ℕ}
    (hWF : u.WF n) (hbest : IsBestPair data u n c q0 r0) {s : CandState}
    {pr : ℕ × ℕ} (h1 : pr.1 < n) (h2 : pr.2 < n) (hlen : s.length = n)
    (hB : ∀ cand : Cand, s.getD c none = some cand →
      sqDistQ (dataPt data q0) (dataPt data r0) ≤ cand.dist) :
    ∀ cand : Cand, (visitPair data u s pr).getD c none = some cand →
      sqDistQ (dataPt data q0) (dataPt data r0) ≤ cand.dist := by
  intro cand hc
  by_cases hcne : c ≠ u.find pr.1
  · rw [visitPair_getD_ne data u s pr hcne] at hc
    exact hB cand hc
  · push_neg at hcne
    subst hcne
    by_cases hcross : u.find pr.1 ≠ u.find pr.2
    · rcases pr with ⟨q, r⟩
      have hlt : u.find q < s.length := by rw [hlen]; exact hWF.2.1 q h1
      have hnew : sqDistQ (dataPt data q0) (dataPt data r0) ≤
          sqDistQ (dataPt data q) (dataPt data r) := by
        refine hbest.2.2.2.2 q r h1 h2 rfl ?_
        intro habs
        exact hcross (by rw [habs])
      rcases hold : s.getD (u.find q) none with _ | old
      · rw [visitPair_getD_none data u s q r hcross hlt hold] at hc
        injection hc with hc
        subst hc
        exact hnew
      · rw [visitPair_getD_some data u s q r hcross hlt hold] at hc
        split at hc
        · injection hc with hc; subst hc; exact hnew
        · injection hc with hc; subst hc; exact hB _ hold
    · rw [visitPair_not_cross data u s pr hcross] at hc
      exact hB cand hc

theorem candA_step {data : List Pt} {u : UF} {n : ℕ} {c q0 r0 : ℕ}
    (hWF : u.WF n) (hbest : IsBestPair data u n c q0 r0)
    (huniq : ∀ q r, q < n → r < n → u.find q = c → u.find r ≠ u.find q →
      sqDistQ (dataPt data q) (dataPt data r) =
        sqDistQ (dataPt data q0) (dataPt data r0) → (q, r) = (q0, r0))
    {s : CandState} {pr : ℕ × ℕ} (h1 : pr.1 < n) (h2 : pr.2 < n)
    (hG : CandsWF data u n s)
    (hB : ∀ cand : Cand, s.getD c none = some cand →
      sqDistQ (dataPt data q0) (dataPt data r0) ≤ cand.dist)
    (hA : s.getD c none =
        some ⟨q0, r0, sqDistQ (dataPt data q0) (dataPt data r0)⟩ ∨ pr = (q0, r0)) :
    (visitPair data u s pr).getD c none =
      some ⟨q0, r0, sqDistQ (dataPt data q0) (dataPt data r0)⟩ := by
  obtain ⟨hq0, hr0, hfq0, hfr0, hmin⟩ := hbest
  rcases hA with hA | hA
  · by_cases hcne : c ≠ u.find pr.1
    · rw [visitPair_getD_ne data u s pr hcne]
      exact hA
    · push_neg at hcne
      subst hcne
      by_cases hcross : u.find pr.1 ≠ u.find pr.2
      · rcases pr with ⟨q, r⟩
        have hge : sqDistQ (dataPt data q0) (dataPt data r0) ≤
            sqDistQ (dataPt data q) (dataPt data r) := by
          refine hmin q r h1 h2 rfl ?_
          intro habs
          exact hcross (by rw [habs])
        rw [visitPair_getD_some data u s q r hcross (getD_some_lt hA) hA,
          if_neg (not_lt.mpr hge)]
      · rw [visitPair_not_cross data u s pr hcross]
        exact hA
  · subst hA
    have hcross : u.find q0 ≠ u.find r0 := by rw [hfq0]; exact Ne.symm hfr0
    have hlt : u.find q0 < s.length := by rw [hG.1]; exact hWF.2.1 q0 hq0
    have hcfq : c = u.find q0 := hfq0.symm
    subst hcfq
    rcases hold : s.getD (u.find q0) none with _ | old
    · rw [visitPair_getD_none data u s q0 r0 hcross hlt hold]
    · rw [visitPair_getD_some data u s q0 r0 hcross hlt hold]
      have hBo := hB old hold
      by_cases hlt2 : sqDistQ (dataPt data q0) (dataPt data r0) < old.dist
      · rw [if_pos hlt2]
      · rw [if_neg hlt2]
        have heq : old.dist = sqDistQ (dataPt data q0) (dataPt data r0) := by
          have := not_lt.mp hlt2
          linarith
        obtain ⟨hoin, hocross, hodist, hoin2, hoout2⟩ := hG.2 _ old hold
        have hpair : (old.inPoint, old.outPoint) = (q0, r0) := by
          refine huniq old.inPoint old.outPoint hoin2 hoout2 hoin hocross.symm ?_
          rw [← hodist]; exact heq
        have ho1 : old.inPoint = q0 := congrArg Prod.fst hpair
        have ho2 : old.outPoint = r0 := congrArg Prod.snd hpair
        have : old = ⟨q0, r0, sqDistQ (dataPt data q0) (dataPt data r0)⟩ := by
          cases old
          simp only [Cand.mk.injEq] at ho1 ho2 heq ⊢
          exact ⟨ho1, ho2, heq⟩
        rw [this]

theorem applyVisits_B {data : List Pt} {u : UF} {n : ℕ} {c q0 r0 : ℕ}
    (hWF : u.WF n) (hbest : IsBestPair data u n c q0 r0) :
    ∀ (L : List (ℕ × ℕ)) (s : CandState), (∀ pr ∈ L, pr.1 < n ∧ pr.2 < n) →
      s.length = n →
      (∀ cand : Cand, s.getD c none = some cand →
        sqDistQ (dataPt data q0) (dataPt data r0) ≤ cand.dist) →
      ∀ cand : Cand, (applyVisits data u s L).getD c none = some cand →
        sqDistQ (dataPt data q0) (dataPt data r0) ≤ cand.dist := by
  intro L
  induction L with
  | nil => intro s _ _ hB; exact hB
  | cons pr rest ih =>
      intro s hL hlen hB
      exact ih _ (fun x hx => hL x (List.mem_cons_of_mem _ hx))
        (by rw [visitPair_length]; exact hlen)
        (candB_preserved hWF hbest (hL pr (List.mem_cons_self _ _)).1
          (hL pr (List.mem_cons_self _ _)).2 hlen hB)

theorem applyVisits_argmin {data : List Pt} {u : UF} {n : ℕ} {c q0 r0 : ℕ}
    (hWF : u.WF n) (hbest : IsBestPair data u n c q0 r0)
    (huniq : ∀ q r, q < n → r < n → u.find q = c → u.find r ≠ u.find q →
      sqDistQ (dataPt data q) (dataPt data r) =
        sqDistQ (dataPt data q0) (dataPt data r0) → (q, r) = (q0, r0)) :
    ∀ (L : List (ℕ × ℕ)) (s : CandState), (∀ pr ∈ L, pr.1 < n ∧ pr.2 < n) →
      CandsWF data u n s →
      (∀ cand : Cand, s.getD c none = some cand →
        sqDistQ (dataPt data q0) (dataPt data r0) ≤ cand.dist) →
      ((q0, r0) ∈ L ∨ s.getD c none =
        some ⟨q0, r0, sqDistQ (dataPt data q0) (dataPt data r0)⟩) →
      (applyVisits data u s L).getD c none =
        some ⟨q0, r0, sqDistQ (dataPt data q0) (dataPt data r0)⟩ := by
  intro L
  induction L with
  | nil =>
      intro s _ _ _ hOr
      rcases hOr with hm | hA
      · cases hm
      · exact hA
  | cons pr rest ih =>
      intro s hL hG hB hOr
      have h1 := (hL pr (List.mem_cons_self _ _)).1
      have h2 := (hL pr (List.mem_cons_self _ _)).2
      refine ih _ (fun x hx => hL x (List.mem_cons_of_mem _ hx))
        (visitPair_candsWF hWF h1 h2 hG)
        (candB_preserved hWF hbest h1 h2 hG.1 hB) ?_
      rcases hOr with hm | hA
      · rcases List.mem_cons.mp hm with heq | hrest
        · exact Or.inr (candA_step hWF hbest huniq h1 h2 hG hB (Or.inr heq.symm))
        · exact Or.inl hrest
      · exact Or.inr (candA_step hWF hbest huniq h1 h2 hG hB (Or.inl hA))

theorem applyVisits_best {data : List Pt} {u : UF} {n : ℕ} {c q0 r0 : ℕ}
    (hWF : u.WF n) (hbest : IsBestPair data u n c q0 r0)
    (L : List (ℕ × ℕ)) (hL : ∀ pr ∈ L, pr.1 < n ∧ pr.2 < n)
    (hmem : (q0, r0) ∈ L) :
    ∃ cand : Cand, (applyVisits data u (initCands n) L).getD c none = some cand ∧
      u.find cand.inPoint = c ∧ u.find cand.inPoint ≠ u.find cand.outPoint ∧
      cand.inPoint < n ∧ cand.outPoint < n ∧
      cand.dist = sqDistQ (dataPt data cand.inPoint) (dataPt data cand.outPoint) ∧
      cand.dist = sqDistQ (dataPt data q0) (dataPt data r0) := by
  obtain ⟨hq0, hr0, hfq0, hfr0, hmin⟩ := hbest
  have hcross : u.find q0 ≠ u.find r0 := by rw [hfq0]; exact Ne.symm hfr0
  obtain ⟨cand, hc, hle⟩ := applyVisits_fills data u hWF L (initCands n)
    (initCands_length n) hmem hq0 hcross
  rw [hfq0] at hc
  have hG0 : CandsWF data u n (initCands n) :=
    ⟨initCands_length n, fun c2 cand2 hc2 => by rw [initCands_getD] at hc2; cases hc2⟩
  have hG := applyVisits_candsWF hWF L (initCands n) hL hG0
  obtain ⟨hin, hcr, hdist, hin2, hout2⟩ := hG.2 c cand hc
  have hgeB := applyVisits_B hWF ⟨hq0, hr0, hfq0, hfr0, hmin⟩ L (initCands n) hL
    (initCands_length n) (fun cand2 hc2 => by rw [initCands_getD] at hc2; cases hc2)
    cand hc
  exact ⟨cand, hc, hin, hcr, hin2, hout2, hdist, le_antisymm hle hgeB⟩

theorem allPairs_mem {n : ℕ} {pr : ℕ × ℕ} : pr ∈ allPairs n ↔ pr.1 < n ∧ pr.2 < n := by
  rcases pr with ⟨q, r⟩
  simp [allPairs]

theorem bestPair_exists (data : List Pt) (u : UF) (n c : ℕ)
    (hin : ∃ i, i < n ∧ u.find i = c) (hout : ∃ j, j < n ∧ u.find j ≠ c) :
    ∃ q r, IsBestPair data u n c q r := by
  obtain ⟨i, hi, hic⟩ := hin
  obtain ⟨j, hj, hjc⟩ := hout
  set L := (allPairs n).filter (fun pr => decide (u.find pr.1 = c ∧ u.find pr.2 ≠ c))
    with hL
  have hmem : (i, j) ∈ L := by
    rw [hL, List.mem_filter]
    exact ⟨allPairs_mem.mpr ⟨hi, hj⟩, by simp [hic, hjc]⟩
  have hne : L ≠ [] := fun h => by rw [h] at hmem; cases hmem
  rcases hm : L.argmin (fun pr => sqDistQ (dataPt data pr.1) (dataPt data pr.2))
    with _ | m
  · exact absurd (List.argmin_eq_none.mp hm) hne
  · have hmL := List.argmin_mem hm
    rw [hL, List.mem_filter] at hmL
    obtain ⟨hmall, hmcond⟩ := hmL
    rw [decide_eq_true_iff] at hmcond
    refine ⟨m.1, m.2, (allPairs_mem.mp hmall).1, (allPairs_mem.mp hmall).2,
      hmcond.1, hmcond.2, ?_⟩
    intro q2 r2 hq2 hr2 hfq2 hfr2
    have h2L : (q2, r2) ∈ L := by
      rw [hL, List.mem_filter]
      exact ⟨allPairs_mem.mpr ⟨hq2, hr2⟩, by simp [hfq2, hfr2]⟩
    exact List.le_of_mem_argmin h2L hm

theorem cleanup_pts (u : UF) (t : DTree) : (cleanup u t).pts = t.pts := by
  induction t with
  | leaf ps s => rfl
  | node s l r ihl ihr => simp [cleanup, DTree.pts, ihl, ihr]

theorem cleanup_size (u : UF) (t : DTree) : (cleanup u t).size = t.size := by
  induction t with
  | leaf ps s => rfl
  | node s l r ihl ihr => simp [cleanup, DTree.size, ihl, ihr]

theorem cleanup_boundsValid (data : List Pt) (u : UF) (n : ℕ) (t : DTree) :
    BoundsValid data u n (cleanup u t) := by
  induction t with
  | leaf ps s => intro p _; exact oLE_none _
  | node s l r ihl ihr =>
      exact ⟨fun p _ => oLE_none _, ihl, ihr⟩

theorem leafMembership_spec (u : UF) (p0 : ℕ) (rest : List ℕ)
    (hpos : 0 ≤ leafMembership u (p0 :: rest)) :
    ∀ p ∈ p0 :: rest, (u.find p : Int) = leafMembership u (p0 :: rest) := by
  intro p hp
  simp only [leafMembership] at hpos ⊢
  split at hpos
  · rename_i hall
    rw [if_pos hall]
    rcases List.mem_cons.mp hp with h | h
    · subst h; rfl
    · rw [List.all_eq_true] at hall
      have h2 := hall p h
      rw [decide_eq_true_iff] at h2
      rw [h2]
  · exact absurd hpos (by decide)

theorem cleanup_tagsValid (u : UF) (t : DTree) : TagsValid u (cleanup u t) := by
  induction t with
  | leaf ps s =>
      intro hpos p hp
      cases ps with
      | nil => cases hp
      | cons p0 rest => exact leafMembership_spec u p0 rest hpos p hp
  | node s l r ihl ihr =>
      show TagsValid u (DTree.node
        ⟨none, combineMembership (cleanup u l).stat.componentMembership
          (cleanup u r).stat.componentMembership⟩ (cleanup u l) (cleanup u r))
      refine ⟨?_, ihl, ihr⟩
      intro hpos p hp
      have hpos2 : 0 ≤ combineMembership (cleanup u l).stat.componentMembership
          (cleanup u r).stat.componentMembership := hpos
      by_cases hcond : (cleanup u l).stat.componentMembership =
          (cleanup u r).stat.componentMembership ∧
          0 ≤ (cleanup u l).stat.componentMembership
      · have hcomb : combineMembership (cleanup u l).stat.componentMembership
            (cleanup u r).stat.componentMembership =
            (cleanup u l).stat.componentMembership := by
          unfold combineMembership
          rw [if_pos hcond]
        show (u.find p : Int) = combineMembership (cleanup u l).stat.componentMembership
          (cleanup u r).stat.componentMembership
        rw [hcomb]
        rcases List.mem_append.mp hp with h | h
        · exact tagsValid_root ihl hcond.2 p h
        · rw [hcond.1]
          exact tagsValid_root ihr (hcond.1 ▸ hcond.2) p h
      · have hcomb : combineMembership (cleanup u l).stat.componentMembership
            (cleanup u r).stat.componentMembership = -1 := by
          unfold combineMembership
          rw [if_neg hcond]
        rw [hcomb] at hpos2
        exact absurd hpos2 (by decide)

theorem mem_toFinset_exists_idx {u : UF} {n : ℕ} (hWF : u.WF n) {c : ℕ}
    (hc : c ∈ u.rep.toFinset) : ∃ i, i < n ∧ u.find i = c := by
  rw [List.mem_toFinset] at hc
  obtain ⟨k, hk, hck⟩ := List.mem_iff_getElem.mp hc
  have hkn : k < n := by have := hWF.1; omega
  exact ⟨k, hkn, by rw [UF.find, getD_eq_getElem _ _ hk]; exact hck⟩

theorem exists_out_of_two_comps {u : UF} {n : ℕ} (hWF : u.WF n)
    (hcomp : 2 ≤ u.numComponents) (c : ℕ) : ∃ j, j < n ∧ u.find j ≠ c := by
  have h2 : 1 < u.rep.toFinset.card := hcomp
  obtain ⟨a, ha, b, hb, hab⟩ := Finset.one_lt_card.mp h2
  by_cases hac : a = c
  · obtain ⟨j, hj, hjb⟩ := mem_toFinset_exists_idx hWF hb
    exact ⟨j, hj, by rw [hjb, ← hac]; exact Ne.symm hab⟩
  · obtain ⟨j, hj, hja⟩ := mem_toFinset_exists_idx hWF ha
    exact ⟨j, hj, by rw [hja]; exact hac⟩

theorem searchVisits_ranges {data : List Pt} {naive : Bool} {st : AlgState}
    (hperm : st.tree.pts.Perm (List.range data.length)) :
    ∀ pr ∈ (searchVisits data naive st).2, pr.1 < data.length ∧ pr.2 < data.length := by
  intro pr hpr
  unfold searchVisits at hpr
  split at hpr
  · exact allPairs_mem.mp hpr
  · have hmem := dtRec_visits_mem data st.uf _ _ _ pr hpr
    rw [cleanup_pts] at hmem
    exact ⟨List.mem_range.mp (hperm.mem_iff.mp hmem.1),
      List.mem_range.mp (hperm.mem_iff.mp hmem.2)⟩

theorem isBestPair_oLE {data : List Pt} {u : UF} {n c q0 r0 : ℕ}
    (hbest : IsBestPair data u n c q0 r0) :
    oLE (some (sqDistQ (dataPt data q0) (dataPt data r0)))
      (nearestCrossSq data u n q0) := by
  obtain ⟨hq0, hr0, hfq0, hfr0, hmin⟩ := hbest
  refine le_crossMinFold data u q0 (List.range n) (fun r hr hc => ?_)
  show sqDistQ (dataPt data q0) (dataPt data r0) ≤ _
  refine hmin q0 r hq0 (List.mem_range.mp hr) hfq0 ?_
  rw [← hfq0]
  exact fun h => hc (h.symm ▸ rfl)

theorem searchVisits_complete {data : List Pt} {naive : Bool} {st : AlgState}
    {D : ℕ} (hdp : ∀ j < data.length, (dataPt data j).length = D)
    (hWF : st.uf.WF data.length)
    (hperm : st.tree.pts.Perm (List.range data.length))
    {c q0 r0 : ℕ} (hbest : IsBestPair data st.uf data.length c q0 r0) :
    (q0, r0) ∈ (searchVisits data naive st).2 := by
  obtain ⟨hq0, hr0, hfq0, hfr0, hmin⟩ := hbest
  unfold searchVisits
  split
  · exact allPairs_mem.mpr ⟨hq0, hr0⟩
  · set T1 := cleanup st.uf st.tree with hT1
    have hpts : T1.pts = st.tree.pts := cleanup_pts st.uf st.tree
    have hsub : ∀ x ∈ T1.pts, x < data.length := by
      intro x hx
      rw [hpts] at hx
      exact List.mem_range.mp (hperm.mem_iff.mp hx)
    have hq0m : q0 ∈ T1.pts := by
      rw [hpts]
      exact hperm.mem_iff.mpr (List.mem_range.mpr hq0)
    have hr0m : r0 ∈ T1.pts := by
      rw [hpts]
      exact hperm.mem_iff.mpr (List.mem_range.mpr hr0)
    refine dtRec_visits_complete data st.uf data.length D hdp _ T1 T1 ?_
      (cleanup_tagsValid st.uf st.tree) (cleanup_tagsValid st.uf st.tree)
      (cleanup_boundsValid data st.uf data.length st.tree) hsub hsub q0 r0 hq0m hr0m
      ?_ (isBestPair_oLE ⟨hq0, hr0, hfq0, hfr0, hmin⟩)
    · omega
    · rw [hfq0]
      exact Ne.symm hfr0

theorem boruvkaRound_eq (data : List Pt) (naive : Bool) (st : AlgState) :
    boruvkaRound data naive st =
      ⟨(mergeAll data.length (roundCands data naive st) st.uf st.edges).1,
       (mergeAll data.length (roundCands data naive st) st.uf st.edges).2,
       (searchVisits data naive st).1⟩ := rfl

theorem roundCands_candsWF {data : List Pt} {naive : Bool} {st : AlgState}
    (hWF : st.uf.WF data.length)
    (hperm : st.tree.pts.Perm (List.range data.length)) :
    CandsWF data st.uf data.length (roundCands data naive st) :=
  applyVisits_candsWF hWF _ _ (searchVisits_ranges hperm)
    ⟨initCands_length _, fun c2 cand2 hc2 => by rw [initCands_getD] at hc2; cases hc2⟩

theorem roundCands_best {data : List Pt} {naive : Bool} {st : AlgState} {D : ℕ}
    (hdp : ∀ j < data.length, (dataPt data j).length = D)
    (hWF : st.uf.WF data.length)
    (hperm : st.tree.pts.Perm (List.range data.length))
    (hcomp : 2 ≤ st.uf.numComponents) :
    ∀ c ∈ st.uf.rep.toFinset, ∃ cand : Cand,
      (roundCands data naive st).getD c none = some cand ∧
      st.uf.find cand.inPoint = c ∧
      st.uf.find cand.inPoint ≠ st.uf.find cand.outPoint ∧
      cand.inPoint < data.length ∧ cand.outPoint < data.length ∧
      cand.dist = sqDistQ (dataPt data cand.inPoint) (dataPt data cand.outPoint) ∧
      (∀ q2 r2, q2 < data.length → r2 < data.length → st.uf.find q2 = c →
        st.uf.find r2 ≠ c → cand.dist ≤ sqDistQ (dataPt data q2) (dataPt data r2)) := by
  intro c hc
  obtain ⟨q0, r0, hbest⟩ := bestPair_exists data st.uf data.length c
    (mem_toFinset_exists_idx hWF hc) (exists_out_of_two_comps hWF hcomp c)
  obtain ⟨cand, hcand, hin, hcr, hin2, hout2, hdist, hdeq⟩ :=
    applyVisits_best hWF hbest _ (searchVisits_ranges hperm)
      (searchVisits_complete hdp hWF hperm hbest)
  refine ⟨cand, hcand, hin, hcr, hin2, hout2, hdist, ?_⟩
  intro q2 r2 hq2 hr2 hfq2 hfr2
  rw [hdeq]
  exact hbest.2.2.2.2 q2 r2 hq2 hr2 hfq2 hfr2

theorem boruvkaRound_WF {data : List Pt} {naive : Bool} {st : AlgState}
    (hWF : st.uf.WF data.length)
    (hperm : st.tree.pts.Perm (List.range data.length)) :
    (boruvkaRound data naive st).uf.WF data.length ∧
    (boruvkaRound data naive st).tree.pts.Perm (List.range data.length) := by
  rw [boruvkaRound_eq]
  constructor
  · exact mergeFold_WF
      (fun c cand hcand =>
        ⟨((roundCands_candsWF hWF hperm).2 c cand hcand).2.2.2.1,
         ((roundCands_candsWF hWF hperm).2 c cand hcand).2.2.2.2⟩)
      (List.range data.length) (st.uf, st.edges) hWF
  · show (searchVisits data naive st).1.pts.Perm (List.range data.length)
    unfold searchVisits
    split
    · exact hperm
    · rw [dtRec_pts, cleanup_pts]
      exact hperm

theorem boruvkaRound_halves {data : List Pt} {naive : Bool} {st : AlgState} {D : ℕ}
    (hdp : ∀ j < data.length, (dataPt data j).length = D)
    (hWF : st.uf.WF data.length)
    (hperm : st.tree.pts.Perm (List.range data.length))
    (hcomp : 2 ≤ st.uf.numComponents) :
    2 * (boruvkaRound data naive st).uf.numComponents ≤ st.uf.numComponents := by
  rw [boruvkaRound_eq]
  refine mergeAll_halves hWF
    (fun c cand hcand =>
      ⟨((roundCands_candsWF hWF hperm).2 c cand hcand).2.2.2.1,
       ((roundCands_candsWF hWF hperm).2 c cand hcand).2.2.2.2⟩) ?_
  intro c hc
  obtain ⟨cand, hcand, hin, hcr, _, _, _, _⟩ :=
    roundCands_best hdp hWF hperm hcomp c hc
  exact ⟨cand, hcand, hin, by rw [← hin]; exact Ne.symm hcr⟩

theorem comps_pos {u : UF} {n : ℕ} (hWF : u.WF n) (hn : 1 ≤ n) :
    1 ≤ u.numComponents := by
  have hlen := hWF.1
  refine Finset.card_pos.mpr ?_
  rcases hne : u.rep with _ | ⟨x, rest⟩
  · exfalso
    rw [hne] at hlen
    simp at hlen
    omega
  · exact ⟨x, by rw [List.mem_toFinset]; exact List.mem_cons_self _ _⟩

theorem boruvkaLoop_WF {data : List Pt} {naive : Bool} :
    ∀ (fuel : ℕ) (st : AlgState), st.uf.WF data.length →
      st.tree.pts.Perm (List.range data.length) →
      (boruvkaLoop data naive fuel st).uf.WF data.length ∧
      (boruvkaLoop data naive fuel st).tree.pts.Perm (List.range data.length) := by
  intro fuel
  induction fuel with
  | zero => intro st h1 h2; exact ⟨h1, h2⟩
  | succ fuel ih =>
      intro st h1 h2
      rw [boruvkaLoop]
      split
      · exact ⟨h1, h2⟩
      · exact ih _ (boruvkaRound_WF h1 h2).1 (boruvkaRound_WF h1 h2).2

theorem boruvkaLoop_comps_le {data : List Pt} {naive : Bool} {D : ℕ}
    (hdp : ∀ j < data.length, (dataPt data j).length = D) :
    ∀ (fuel : ℕ) (st : AlgState), st.uf.WF data.length →
      st.tree.pts.Perm (List.range data.length) →
      (boruvkaLoop data naive fuel st).uf.numComponents ≤
        max 1 (st.uf.numComponents / 2 ^ fuel) := by
  intro fuel
  induction fuel with
  | zero =>
      intro st _ _
      simp only [boruvkaLoop, pow_zero, Nat.div_one]
      omega
  | succ fuel ih =>
      intro st h1 h2
      rw [boruvkaLoop]
      split
      · rename_i hguard
        omega
      · rename_i hguard
        push_neg at hguard
        have hhalf := @boruvkaRound_halves data naive st D hdp h1 h2 hguard
        have hrec := ih (boruvkaRound data naive st)
          (@boruvkaRound_WF data naive st h1 h2).1
          (@boruvkaRound_WF data naive st h1 h2).2
        have hdiv : (boruvkaRound data naive st).uf.numComponents ≤
            st.uf.numComponents / 2 := by omega
        have hstep : (boruvkaRound data naive st).uf.numComponents / 2 ^ fuel ≤
            st.uf.numComponents / 2 ^ (fuel + 1) := by
          calc (boruvkaRound data naive st).uf.numComponents / 2 ^ fuel ≤
              (st.uf.numComponents / 2) / 2 ^ fuel := Nat.div_le_div_right hdiv
            _ = st.uf.numComponents / 2 ^ (fuel + 1) := by
                rw [Nat.div_div_eq_div_mul, pow_succ, mul_comm (2 ^ fuel) 2]
        omega

theorem boruvkaRound_count {data : List Pt} {naive : Bool} {st : AlgState}
    (hWF : st.uf.WF data.length)
    (hperm : st.tree.pts.Perm (List.range data.length)) :
    (boruvkaRound data naive st).uf.numComponents +
      (boruvkaRound data naive st).edges.length =
    st.uf.numComponents + st.edges.length := by
  rw [boruvkaRound_eq]
  exact mergeFold_count
    (fun c cand hcand =>
      ⟨((roundCands_candsWF hWF hperm).2 c cand hcand).2.2.2.1,
       ((roundCands_candsWF hWF hperm).2 c cand hcand).2.2.2.2⟩)
    (List.range data.length) (st.uf, st.edges) hWF

theorem boruvkaLoop_count {data : List Pt} {naive : Bool} :
    ∀ (fuel : ℕ) (st : AlgState), st.uf.WF data.length →
      st.tree.pts.Perm (List.range data.length) →
      (boruvkaLoop data naive fuel st).uf.numComponents +
        (boruvkaLoop data naive fuel st).edges.length =
      st.uf.numComponents + st.edges.length := by
  intro fuel
  induction fuel with
  | zero => intro st _ _; rfl
  | succ fuel ih =>
      intro st h1 h2
      rw [boruvkaLoop]
      split
      · rfl
      · rw [ih _ (boruvkaRound_WF h1 h2).1 (boruvkaRound_WF h1 h2).2]
        exact boruvkaRound_count h1 h2

theorem boruvkaRound_mono {data : List Pt} {naive : Bool} {st : AlgState}
    (hWF : st.uf.WF data.length)
    (hperm : st.tree.pts.Perm (List.range data.length))
    {i j : ℕ} (hi : i < data.length) (hj : j < data.length)
    (h : st.uf.find i = st.uf.find j) :
    (boruvkaRound data naive st).uf.find i = (boruvkaRound data naive st).uf.find j := by
  rw [boruvkaRound_eq]
  exact mergeFold_mono
    (fun c cand hcand =>
      ⟨((roundCands_candsWF hWF hperm).2 c cand hcand).2.2.2.1,
       ((roundCands_candsWF hWF hperm).2 c cand hcand).2.2.2.2⟩)
    (List.range data.length) (st.uf, st.edges) hWF i j hi hj h

theorem boruvkaLoop_mono {data : List Pt} {naive : Bool} :
    ∀ (fuel : ℕ) (st : AlgState), st.uf.WF data.length →
      st.tree.pts.Perm (List.range data.length) →
      ∀ i j, i < data.length → j < data.length → st.uf.find i = st.uf.find j →
      (boruvkaLoop data naive fuel st).uf.find i =
        (boruvkaLoop data naive fuel st).uf.find j := by
  intro fuel
  induction fuel with
  | zero => intro st _ _ i j _ _ h; exact h
  | succ fuel ih =>
      intro st h1 h2 i j hi hj h
      rw [boruvkaLoop]
      split
      · exact h
      · exact ih _ (boruvkaRound_WF h1 h2).1 (boruvkaRound_WF h1 h2).2 i j hi hj
          (boruvkaRound_mono h1 h2 hi hj h)

theorem boruvkaRound_edgesWF {data : List Pt} {naive : Bool} {st : AlgState}
    (hWF : st.uf.WF data.length)
    (hperm : st.tree.pts.Perm (List.range data.length))
    (hes : EdgesWF data data.length st.edges) :
    EdgesWF data data.length (boruvkaRound data naive st).edges := by
  rw [boruvkaRound_eq]
  refine mergeFold_edgesWF ?_ (List.range data.length) (st.uf, st.edges) hes
  intro c cand hcand
  obtain ⟨_, _, hdist, hin, hout⟩ := (roundCands_candsWF hWF hperm).2 c cand hcand
  exact ⟨hin, hout, hdist⟩

theorem boruvkaLoop_edgesWF {data : List Pt} {naive : Bool} :
    ∀ (fuel : ℕ) (st : AlgState), st.uf.WF data.length →
      st.tree.pts.Perm (List.range data.length) →
      EdgesWF data data.length st.edges →
      EdgesWF data data.length (boruvkaLoop data naive fuel st).edges := by
  intro fuel
  induction fuel with
  | zero => intro st _ _ h; exact h
  | succ fuel ih =>
      intro st h1 h2 h
      rw [boruvkaLoop]
      split
      · exact h
      · exact ih _ (boruvkaRound_WF h1 h2).1 (boruvkaRound_WF h1 h2).2
          (boruvkaRound_edgesWF h1 h2 h)

theorem boruvkaRound_respects {data : List Pt} {naive : Bool} {st : AlgState}
    (hWF : st.uf.WF data.length)
    (hperm : st.tree.pts.Perm (List.range data.length))
    (hR : ∀ i j, i < data.length → j < data.length →
      st.uf.find i = st.uf.find j → Relation.EqvGen (edgesRel st.edges) i j) :
    ∀ i j, i < data.length → j < data.length →
      (boruvkaRound data naive st).uf.find i = (boruvkaRound data naive st).uf.find j →
      Relation.EqvGen (edgesRel (boruvkaRound data naive st).edges) i j := by
  rw [boruvkaRound_eq]
  exact mergeFold_respects
    (fun c cand hcand =>
      ⟨((roundCands_candsWF hWF hperm).2 c cand hcand).2.2.2.1,
       ((roundCands_candsWF hWF hperm).2 c cand hcand).2.2.2.2⟩)
    (List.range data.length) (st.uf, st.edges) hWF hR

theorem boruvkaLoop_respects {data : List Pt} {naive : Bool} :
    ∀ (fuel : ℕ) (st : AlgState), st.uf.WF data.length →
      st.tree.pts.Perm (List.range data.length) →
      (∀ i j, i < data.length → j < data.length →
        st.uf.find i = st.uf.find j → Relation.EqvGen (edgesRel st.edges) i j) →
      ∀ i j, i < data.length → j < data.length →
        (boruvkaLoop data naive fuel st).uf.find i =
          (boruvkaLoop data naive fuel st).uf.find j →
        Relation.EqvGen (edgesRel (boruvkaLoop data naive fuel st).edges) i j := by
  intro fuel
  induction fuel with
  | zero => intro st _ _ hR; exact hR
  | succ fuel ih =>
      intro st h1 h2 hR
      rw [boruvkaLoop]
      split
      · exact hR
      · exact ih _ (boruvkaRound_WF h1 h2).1 (boruvkaRound_WF h1 h2).2
          (boruvkaRound_respects h1 h2 hR)

theorem dataPt_length {data : List Pt} {D : ℕ} (hdim : ∀ p ∈ data, p.length = D) :
    ∀ j < data.length, (dataPt data j).length = D := by
  intro j hj
  refine hdim _ ?_
  rw [dataPt, getD_eq_getElem _ _ hj]
  exact List.getElem_mem _

theorem sqDist_minmax (data : List Pt) (a b : ℕ) :
    sqDistQ (dataPt data (min a b)) (dataPt data (max a b)) =
      sqDistQ (dataPt data a) (dataPt data b) := by
  rcases le_total a b with h | h
  · rw [min_eq_left h, max_eq_right h]
  · rw [min_eq_right h, max_eq_left h, sqDistQ_comm]

theorem pdd_eq {data : List Pt} (hdist : PairwiseDistinctDists data) {a b x y : ℕ}
    (ha : a < data.length) (hb : b < data.length) (hx : x < data.length)
    (hy : y < data.length) (hab : a ≠ b) (hxy : x ≠ y)
    (heq : sqDistQ (dataPt data a) (dataPt data b) =
      sqDistQ (dataPt data x) (dataPt data y)) :
    (a = x ∧ b = y) ∨ (a = y ∧ b = x) := by
  by_cases hpair : min a b = min x y ∧ max a b = max x y
  · omega
  · exfalso
    have hmm : min a b < max a b := min_lt_max.mpr hab
    have hmm2 : min x y < max x y := min_lt_max.mpr hxy
    refine hdist (min a b) ?_ (max a b) ?_ (min x y) ?_ (max x y) ?_ hmm hmm2 ?_ ?_
    · exact List.mem_range.mpr (by omega)
    · exact List.mem_range.mpr (by omega)
    · exact List.mem_range.mpr (by omega)
    · exact List.mem_range.mpr (by omega)
    · intro hcontra
      exact hpair ⟨congrArg Prod.fst hcontra, congrArg Prod.snd hcontra⟩
    · rw [sqDist_minmax, sqDist_minmax, heq]

theorem candState_eq_of_getD {l1 l2 : CandState} (hlen : l1.length = l2.length)
    (h : ∀ c, l1.getD c none = l2.getD c none) : l1 = l2 := by
  refine List.ext_getElem hlen (fun i h1 h2 => ?_)
  have := h i
  rwa [getD_eq_getElem _ _ h1, getD_eq_getElem _ _ h2] at this

theorem roundCands_eq_of_distinct {data : List Pt} {D : ℕ}
    (hdim : ∀ p ∈ data, p.length = D) (hdist : PairwiseDistinctDists data)
    {stT stN : AlgState} (huf : stT.uf = stN.uf)
    (hWF : stT.uf.WF data.length)
    (hpermT : stT.tree.pts.Perm (List.range data.length))
    (hpermN : stN.tree.pts.Perm (List.range data.length))
    (hcomp : 2 ≤ stT.uf.numComponents) :
    roundCands data false stT = roundCands data true stN := by
  have hdp := dataPt_length hdim
  have hWFN : stN.uf.WF data.length := huf ▸ hWF
  refine candState_eq_of_getD ?_ ?_
  · show (applyVisits _ _ _ _).length = (applyVisits _ _ _ _).length
    rw [applyVisits_length, applyVisits_length]
  · intro c
    by_cases hex : ∃ i, i < data.length ∧ stT.uf.find i = c
    · obtain ⟨q0, r0, hbest⟩ := bestPair_exists data stT.uf data.length c hex
        (exists_out_of_two_comps hWF hcomp c)
      have huniq : ∀ q r, q < data.length → r < data.length → stT.uf.find q = c →
          stT.uf.find r ≠ stT.uf.find q →
          sqDistQ (dataPt data q) (dataPt data r) =
            sqDistQ (dataPt data q0) (dataPt data r0) → (q, r) = (q0, r0) := by
        intro q r hq hr hfq hfr hd
        have hqr : q ≠ r := fun h => hfr (by rw [h])
        have hq0r0 : q0 ≠ r0 := by
          intro h
          exact hbest.2.2.2.1 (by rw [← h, hbest.2.2.1])
        rcases pdd_eq hdist hq hr hbest.1 hbest.2.1 hqr hq0r0 hd with ⟨h1, h2⟩ | ⟨h1, h2⟩
        · rw [h1, h2]
        · exfalso
          apply hbest.2.2.2.1
          rw [← h1, hfq]
      have hT := applyVisits_argmin hWF hbest huniq (searchVisits data false stT).2
        (initCands data.length) (searchVisits_ranges hpermT)
        ⟨initCands_length _, fun c2 cand2 hc2 => by rw [initCands_getD] at hc2; cases hc2⟩
        (fun cand2 hc2 => by rw [initCands_getD] at hc2; cases hc2)
        (Or.inl (searchVisits_complete hdp hWF hpermT hbest))
      have hbestN : IsBestPair data stN.uf data.length c q0 r0 := huf ▸ hbest
      have huniqN : ∀ q r, q < data.length → r < data.length → stN.uf.find q = c →
          stN.uf.find r ≠ stN.uf.find q →
          sqDistQ (dataPt data q) (dataPt data r) =
            sqDistQ (dataPt data q0) (dataPt data r0) → (q, r) = (q0, r0) := huf ▸ huniq
      have hN := applyVisits_argmin hWFN hbestN huniqN (searchVisits data true stN).2
        (initCands data.length) (searchVisits_ranges hpermN)
        ⟨initCands_length _, fun c2 cand2 hc2 => by rw [initCands_getD] at hc2; cases hc2⟩
        (fun cand2 hc2 => by rw [initCands_getD] at hc2; cases hc2)
        (Or.inl (searchVisits_complete hdp hWFN hpermN hbestN))
      show (applyVisits data stT.uf _ _).getD c none =
        (applyVisits data stN.uf _ _).getD c none
      rw [hT, hN]
    · push_neg at hex
      have hnone : ∀ (u2 : UF) (st2 : AlgState) (naive : Bool), u2 = stT.uf →
          st2.uf = u2 → st2.tree.pts.Perm (List.range data.length) →
          (roundCands data naive st2).getD c none = none := by
        intro u2 st2 naive hu2 hst2 hperm2
        rcases hc2 : (roundCands data naive st2).getD c none with _ | cand
        · rfl
        · exfalso
          have hWF2 : st2.uf.WF data.length := by rw [hst2, hu2]; exact hWF
          obtain ⟨hin, _, _, hin2, _⟩ := (roundCands_candsWF hWF2 hperm2).2 c cand hc2
          refine hex cand.inPoint hin2 ?_
          rw [← hu2, ← hst2]
          exact hin
      show (roundCands data false stT).getD c none = (roundCands data true stN).getD c none
      rw [hnone stT.uf stT false rfl rfl hpermT, hnone stT.uf stN true rfl huf.symm hpermN]

theorem boruvkaRound_eq_modes {data : List Pt} {D : ℕ}
    (hdim : ∀ p ∈ data, p.length = D) (hdist : PairwiseDistinctDists data)
    {stT stN : AlgState} (huf : stT.uf = stN.uf) (hedges : stT.edges = stN.edges)
    (hWF : stT.uf.WF data.length)
    (hpermT : stT.tree.pts.Perm (List.range data.length))
    (hpermN : stN.tree.pts.Perm (List.range data.length))
    (hcomp : 2 ≤ stT.uf.numComponents) :
    (boruvkaRound data false stT).uf = (boruvkaRound data true stN).uf ∧
    (boruvkaRound data false stT).edges = (boruvkaRound data true stN).edges := by
  rw [boruvkaRound_eq, boruvkaRound_eq]
  rw [roundCands_eq_of_distinct hdim hdist huf hWF hpermT hpermN hcomp, huf, hedges]
  exact ⟨rfl, rfl⟩

theorem boruvkaLoop_eq_modes {data : List Pt} {D : ℕ}
    (hdim : ∀ p ∈ data, p.length = D) (hdist : PairwiseDistinctDists data) :
    ∀ (fuel : ℕ) (stT stN : AlgState), stT.uf = stN.uf → stT.edges = stN.edges →
      stT.uf.WF data.length →
      stT.tree.pts.Perm (List.range data.length) →
      stN.tree.pts.Perm (List.range data.length) →
      (boruvkaLoop data false fuel stT).uf = (boruvkaLoop data true fuel stN).uf ∧
      (boruvkaLoop data false fuel stT).edges =
        (boruvkaLoop data true fuel stN).edges := by
  intro fuel
  induction fuel with
  | zero => intro stT stN huf hedges _ _ _; exact ⟨huf, hedges⟩
  | succ fuel ih =>
      intro stT stN huf hedges hWF hpermT hpermN
      rw [boruvkaLoop, boruvkaLoop]
      by_cases hguard : stT.uf.numComponents ≤ 1
      · rw [if_pos hguard, if_pos (by rw [← huf]; exact hguard)]
        exact ⟨huf, hedges⟩
      · rw [if_neg hguard, if_neg (by rw [← huf]; exact hguard)]
        have hcomp : 2 ≤ stT.uf.numComponents := by omega
        obtain ⟨huf2, hedges2⟩ :=
          boruvkaRound_eq_modes hdim hdist huf hedges hWF hpermT hpermN hcomp
        exact ih _ _ huf2 hedges2 (@boruvkaRound_WF data false stT hWF hpermT).1
          (@boruvkaRound_WF data false stT hWF hpermT).2
          (@boruvkaRound_WF data true stN (huf ▸ hWF) hpermN).2

theorem buildTreeAux_pts_perm (data : List Pt) (dims leafSize : ℕ) :
    ∀ (fuel : ℕ) (idxs : List ℕ), (buildTreeAux data dims leafSize fuel idxs).pts.Perm idxs := by
  intro fuel
  induction fuel with
  | zero => intro idxs; exact List.Perm.refl _
  | succ fuel ih =>
      intro idxs
      rw [buildTreeAux]
      split
      · exact List.Perm.refl _
      · show ((buildTreeAux data dims leafSize fuel _).pts ++
          (buildTreeAux data dims leafSize fuel _).pts).Perm idxs
        refine List.Perm.trans (List.Perm.append (ih _) (ih _)) ?_
        rw [List.take_append_drop]
        exact List.perm_insertionSort _ _

theorem buildTree_pts_perm (data : List Pt) (leafSize : ℕ) :
    (buildTree data leafSize).pts.Perm (List.range data.length) :=
  buildTreeAux_pts_perm data _ leafSize _ _

theorem initState_perm (data : List Pt) (naive : Bool) (leafSize : ℕ) :
    (initState data naive leafSize).tree.pts.Perm (List.range data.length) := by
  unfold initState
  split
  · exact List.Perm.refl _
  · exact buildTree_pts_perm data leafSize

theorem mstEdges_eq_modes {data : List Pt} {D : ℕ}
    (hdim : ∀ p ∈ data, p.length = D) (hdist : PairwiseDistinctDists data)
    (leafSize : ℕ) :
    mstEdges data false leafSize = mstEdges data true leafSize := by
  unfold mstEdges
  split
  · rfl
  · have h := boruvkaLoop_eq_modes hdim hdist data.length
      (initState data false leafSize) (initState data true leafSize) rfl rfl
      (UF.WF_init _) (initState_perm data false leafSize) (initState_perm data true leafSize)
    unfold runBoruvka
    rw [h.2]

theorem buildTree_full_leaf {data : List Pt} {leafSize : ℕ}
    (h : data.length ≤ leafSize) :
    buildTree data leafSize = DTree.leaf (List.range data.length) ⟨none, -1⟩ := by
  unfold buildTree
  cases hn : data.length with
  | zero => rfl
  | succ m =>
      rw [buildTreeAux]
      rw [if_pos]
      left
      rw [List.length_range]
      omega

theorem leafMembership_const {u : UF} {ps : List ℕ}
    (hpos : 0 ≤ leafMembership u ps) :
    ∀ p ∈ ps, ∀ q ∈ ps, u.find p = u.find q := by
  cases ps with
  | nil => intro p hp; cases hp
  | cons p0 rest =>
      intro p hp q hq
      have h1 := leafMembership_spec u p0 rest hpos p hp
      have h2 := leafMembership_spec u p0 rest hpos q hq
      exact_mod_cast h1.trans h2.symm

theorem leafMembership_comps_le_one {u : UF} {n : ℕ} (hWF : u.WF n)
    (hpos : 0 ≤ leafMembership u (List.range n)) : u.numComponents ≤ 1 := by
  have hconst := leafMembership_const hpos
  refine Finset.card_le_one.mpr (fun a ha b hb => ?_)
  rw [List.mem_toFinset] at ha hb
  obtain ⟨i, hi, hia⟩ := List.mem_iff_getElem.mp ha
  obtain ⟨j, hj, hjb⟩ := List.mem_iff_getElem.mp hb
  have hin : i < n := by have := hWF.1; omega
  have hjn : j < n := by have := hWF.1; omega
  have h1 : u.find i = a := by rw [UF.find, getD_eq_getElem _ _ hi]; exact hia
  have h2 : u.find j = b := by rw [UF.find, getD_eq_getElem _ _ hj]; exact hjb
  rw [← h1, ← h2]
  exact hconst i (List.mem_range.mpr hin) j (List.mem_range.mpr hjn)

theorem searchVisits_singleLeaf {data : List Pt} {st : AlgState} {s0 : DTBStat}
    (hWF : st.uf.WF data.length)
    (htree : st.tree = DTree.leaf (List.range data.length) s0)
    (hcomp : 2 ≤ st.uf.numComponents) :
    searchVisits data false st =
      (DTree.leaf (List.range data.length)
        ⟨oMin none (leafCrossBound data st.uf (List.range data.length)
          (List.range data.length)),
         leafMembership st.uf (List.range data.length)⟩,
       pairProd (List.range data.length) (List.range data.length)) := by
  unfold searchVisits
  rw [if_neg (by simp), htree]
  show dtRec data st.uf (Nat.succ 2) (DTree.leaf (List.range data.length)
    ⟨none, leafMembership st.uf (List.range data.length)⟩)
    (DTree.leaf (List.range data.length)
      ⟨none, leafMembership st.uf (List.range data.length)⟩) = _
  rw [dtRec]
  rw [if_neg ?_]
  · rintro (h | h)
    · unfold pruneCheck at h
      simp only [DTree.stat] at h
      cases h
    · unfold sameCompSkip at h
      rw [decide_eq_true_iff] at h
      simp only [DTree.stat] at h
      have := leafMembership_comps_le_one hWF h.2
      omega

theorem boruvkaRound_singleLeaf_eq {data : List Pt} {stT stN : AlgState} {s0 : DTBStat}
    (huf : stT.uf = stN.uf) (hedges : stT.edges = stN.edges)
    (hWF : stT.uf.WF data.length)
    (htree : stT.tree = DTree.leaf (List.range data.length) s0)
    (hcomp : 2 ≤ stT.uf.numComponents) :
    ((boruvkaRound data false stT).uf = (boruvkaRound data true stN).uf ∧
     (boruvkaRound data false stT).edges = (boruvkaRound data true stN).edges) ∧
    ∃ s1, (boruvkaRound data false stT).tree =
      DTree.leaf (List.range data.length) s1 := by
  have hsv := searchVisits_singleLeaf hWF htree hcomp
  have hnv : (searchVisits data true stN).2 = allPairs data.length := rfl
  have hpp : pairProd (List.range data.length) (List.range data.length) =
      allPairs data.length := rfl
  rw [boruvkaRound_eq, boruvkaRound_eq]
  unfold roundCands
  rw [hsv, hnv, hpp, huf, hedges]
  exact ⟨⟨rfl, rfl⟩, _, rfl⟩

theorem boruvkaLoop_singleLeaf_eq {data : List Pt} :
    ∀ (fuel : ℕ) (stT stN : AlgState) (s0 : DTBStat),
      stT.uf = stN.uf → stT.edges = stN.edges → stT.uf.WF data.length →
      stT.tree = DTree.leaf (List.range data.length) s0 →
      (boruvkaLoop data false fuel stT).uf = (boruvkaLoop data true fuel stN).uf ∧
      (boruvkaLoop data false fuel stT).edges =
        (boruvkaLoop data true fuel stN).edges := by
  intro fuel
  induction fuel with
  | zero => intro stT stN s0 huf hedges _ _; exact ⟨huf, hedges⟩
  | succ fuel ih =>
      intro stT stN s0 huf hedges hWF htree
      rw [boruvkaLoop, boruvkaLoop]
      by_cases hguard : stT.uf.numComponents ≤ 1
      · rw [if_pos hguard, if_pos (by rw [← huf]; exact hguard)]
        exact ⟨huf, hedges⟩
      · rw [if_neg hguard, if_neg (by rw [← huf]; exact hguard)]
        have hcomp : 2 ≤ stT.uf.numComponents := by omega
        obtain ⟨⟨huf2, hedges2⟩, s1, htree2⟩ :=
          boruvkaRound_singleLeaf_eq huf hedges hWF htree hcomp
        have hperm : stT.tree.pts.Perm (List.range data.length) := by
          rw [htree]; exact List.Perm.refl _
        exact ih _ _ s1 huf2 hedges2 (@boruvkaRound_WF data false stT hWF hperm).1 htree2

theorem mstEdges_leafSize_full (data : List Pt) (leafSize : ℕ) :
    mstEdges data false data.length = mstEdges data true leafSize := by
  unfold mstEdges
  split
  · rfl
  · unfold runBoruvka
    have hinit : (initState data false data.length).tree =
        DTree.leaf (List.range data.length) ⟨none, -1⟩ := by
      unfold initState
      rw [if_neg (by simp)]
      exact buildTree_full_leaf (le_refl _)
    have h := boruvkaLoop_singleLeaf_eq data.length
      (initState data false data.length) (initState data true leafSize)
      ⟨none, -1⟩ rfl rfl (UF.WF_init _) hinit
    rw [h.2]

theorem boundsLE_refl (t : DTree) : BoundsLE t t := by
  induction t with
  | leaf ps s => exact ⟨rfl, oLE_refl _⟩
  | node s l r ihl ihr => exact ⟨oLE_refl _, ihl, ihr⟩

theorem boundsLE_trans : ∀ {t1 t2 t3 : DTree},
    BoundsLE t1 t2 → BoundsLE t2 t3 → BoundsLE t1 t3 := by
  intro t1
  induction t1 with
  | leaf ps s =>
      intro t2 t3 h12 h23
      cases t2 with
      | leaf ps2 s2 =>
          cases t3 with
          | leaf ps3 s3 => exact ⟨h12.1.trans h23.1, oLE_trans h12.2 h23.2⟩
          | node _ _ _ => exact absurd h23 id
      | node _ _ _ => exact absurd h12 id
  | node s l r ihl ihr =>
      intro t2 t3 h12 h23
      cases t2 with
      | leaf _ _ => exact absurd h12 id
      | node s2 l2 r2 =>
          cases t3 with
          | leaf _ _ => exact absurd h23 id
          | node s3 l3 r3 =>
              exact ⟨oLE_trans h12.1 h23.1, ihl h12.2.1 h23.2.1, ihr h12.2.2 h23.2.2⟩

theorem boundsLE_root : ∀ {t1 t2 : DTree}, BoundsLE t1 t2 → oLE t1.mnd t2.mnd := by
  intro t1 t2 h
  cases t1 with
  | leaf ps s =>
      cases t2 with
      | leaf ps2 s2 => exact h.2
      | node _ _ _ => exact absurd h id
  | node s l r =>
      cases t2 with
      | leaf _ _ => exact absurd h id
      | node s2 l2 r2 => exact h.1

theorem cleanup_maxInv (u : UF) (t : DTree) : MaxInv (cleanup u t) := by
  induction t with
  | leaf ps s => trivial
  | node s l r ihl ihr => exact ⟨oLE_none _, ihl, ihr⟩

theorem dtRec_tightens (data : List Pt) (u : UF) :
    ∀ (fuel : ℕ) (Q R : DTree), MaxInv Q →
      BoundsLE (dtRec data u fuel Q R).1 Q ∧ MaxInv (dtRec data u fuel Q R).1 := by
  intro fuel
  induction fuel with
  | zero => intro Q R hM; exact ⟨boundsLE_refl Q, hM⟩
  | succ fuel ih =>
      intro Q R hM
      cases Q with
      | leaf qp qs =>
          cases R with
          | leaf rp rs =>
              rw [dtRec]
              split
              · exact ⟨boundsLE_refl _, hM⟩
              · exact ⟨⟨rfl, oMin_le_left _ _⟩, trivial⟩
          | node rs rl rr =>
              rw [dtRec]
              split
              · exact ⟨boundsLE_refl _, hM⟩
              · dsimp only
                split
                · obtain ⟨h1, m1⟩ := ih (DTree.leaf qp qs) rl hM
                  obtain ⟨h2, m2⟩ := ih _ rr m1
                  exact ⟨boundsLE_trans h2 h1, m2⟩
                · obtain ⟨h1, m1⟩ := ih (DTree.leaf qp qs) rr hM
                  obtain ⟨h2, m2⟩ := ih _ rl m1
                  exact ⟨boundsLE_trans h2 h1, m2⟩
      | node qs ql qr =>
          obtain ⟨hMroot, hMl, hMr⟩ := hM
          cases R with
          | leaf rp rs =>
              rw [dtRec]
              split
              · exact ⟨boundsLE_refl _, hMroot, hMl, hMr⟩
              · dsimp only
                obtain ⟨h1, m1⟩ := ih ql (DTree.leaf rp rs) hMl
                obtain ⟨h2, m2⟩ := ih qr (DTree.leaf rp rs) hMr
                refine ⟨⟨?_, h1, h2⟩, ?_, m1, m2⟩
                · exact oLE_trans (oMax_mono (boundsLE_root h1) (boundsLE_root h2)) hMroot
                · exact oLE_refl _
          | node rs rl rr =>
              rw [dtRec]
              split
              · exact ⟨boundsLE_refl _, hMroot, hMl, hMr⟩
              · dsimp only
                have hhalf : ∀ (X : DTree), MaxInv X →
                    ∀ (Y : DTree),
                    BoundsLE (if minDistSqRect (rectOf data X.pts) (rectOf data rl.pts) ≤
                        minDistSqRect (rectOf data X.pts) (rectOf data rr.pts) then
                        ((dtRec data u fuel (dtRec data u fuel X rl).1 rr).1,
                          (dtRec data u fuel X rl).2 ++
                            (dtRec data u fuel (dtRec data u fuel X rl).1 rr).2)
                      else
                        ((dtRec data u fuel (dtRec data u fuel X rr).1 rl).1,
                          (dtRec data u fuel X rr).2 ++
                            (dtRec data u fuel (dtRec data u fuel X rr).1 rl).2)).1 X ∧
                    MaxInv (if minDistSqRect (rectOf data X.pts) (rectOf data rl.pts) ≤
                        minDistSqRect (rectOf data X.pts) (rectOf data rr.pts) then
                        ((dtRec data u fuel (dtRec data u fuel X rl).1 rr).1,
                          (dtRec data u fuel X rl).2 ++
                            (dtRec data u fuel (dtRec data u fuel X rl).1 rr).2)
                      else
                        ((dtRec data u fuel (dtRec data u fuel X rr).1 rl).1,
                          (dtRec data u fuel X rr).2 ++
                            (dtRec data u fuel (dtRec data u fuel X rr).1 rl).2)).1 := by
                  intro X hX Y
                  split
                  · obtain ⟨h1, m1⟩ := ih X rl hX
                    obtain ⟨h2, m2⟩ := ih _ rr m1
                    exact ⟨boundsLE_trans h2 h1, m2⟩
                  · obtain ⟨h1, m1⟩ := ih X rr hX
                    obtain ⟨h2, m2⟩ := ih _ rl m1
                    exact ⟨boundsLE_trans h2 h1, m2⟩
                obtain ⟨hl1, ml1⟩ := hhalf ql hMl ql
                obtain ⟨hr1, mr1⟩ := hhalf qr hMr qr
                refine ⟨⟨?_, hl1, hr1⟩, ?_, ml1, mr1⟩
                · exact oLE_trans (oMax_mono (boundsLE_root hl1) (boundsLE_root hr1)) hMroot
                · exact oLE_refl _

theorem sortEdges_perm (es : List IEdge) : (sortEdges es).Perm es :=
  List.perm_insertionSort _ _

theorem sortEdges_sorted (es : List IEdge) : (sortEdges es).Sorted edgeDistLE :=
  List.sorted_insertionSort _ _

theorem sortEdges_mem {es : List IEdge} {e : IEdge} :
    e ∈ sortEdges es ↔ e ∈ es := (sortEdges_perm es).mem_iff

theorem sortEdges_length (es : List IEdge) : (sortEdges es).length = es.length :=
  (sortEdges_perm es).length_eq

theorem sqDistQ_nonneg (p q : Pt) : 0 ≤ sqDistQ p q := by
  unfold sqDistQ
  induction p generalizing q with
  | nil => simp
  | cons x rest ih =>
      cases q with
      | nil => simp
      | cons y q2 =>
          simp only [List.zipWith_cons_cons, List.sum_cons]
          have h1 : (0 : ℤ) ≤ (x - y) ^ 2 := sq_nonneg _
          have h2 := ih q2
          linarith

theorem sqDistQ_cast (p q : Pt) : ((sqDistQ p q : ℤ) : ℝ) =
    (List.zipWith (fun a b => (a - b) ^ 2)
      (p.map (Int.cast : ℤ → ℝ)) (q.map (Int.cast : ℤ → ℝ))).sum := by
  unfold sqDistQ
  induction p generalizing q with
  | nil => simp
  | cons x rest ih =>
      cases q with
      | nil => simp
      | cons y q2 =>
          simp only [List.map_cons, List.zipWith_cons_cons, List.sum_cons]
          rw [Int.cast_add, ih q2, Int.cast_pow, Int.cast_sub]

theorem euclidDistR_eq_sqrt (p q : Pt) :
    euclidDistR p q = Real.sqrt ((sqDistQ p q : ℤ) : ℝ) := by
  rw [euclidDistR, sqDistQ_cast]

theorem runBoruvka_final {data : List Pt} {D : ℕ}
    (hdim : ∀ p ∈ data, p.length = D) (h2 : 2 ≤ data.length)
    (naive : Bool) (leafSize : ℕ) :
    (runBoruvka data naive leafSize).uf.WF data.length ∧
    (runBoruvka data naive leafSize).uf.numComponents = 1 ∧
    (runBoruvka data naive leafSize).edges.length = data.length - 1 ∧
    EdgesWF data data.length (runBoruvka data naive leafSize).edges ∧
    (∀ i j, i < data.length → j < data.length →
      Relation.EqvGen (edgesRel (runBoruvka data naive leafSize).edges) i j) := by
  have hdp := dataPt_length hdim
  set n := data.length with hn
  have hWF0 : (initState data naive leafSize).uf.WF n := UF.WF_init n
  have hperm0 := initState_perm data naive leafSize
  have hWFf := @boruvkaLoop_WF data naive n (initState data naive leafSize) hWF0 hperm0
  have hle := @boruvkaLoop_comps_le data naive D hdp n (initState data naive leafSize)
    hWF0 hperm0
  have hinitc : (initState data naive leafSize).uf.numComponents = n :=
    UF.numComponents_init n
  have hpow : n < 2 ^ n := Nat.lt_two_pow n
  have hone : (runBoruvka data naive leafSize).uf.numComponents = 1 := by
    have hup : (runBoruvka data naive leafSize).uf.numComponents ≤ 1 := by
      have : n / 2 ^ n = 0 := Nat.div_eq_of_lt hpow
      rw [runBoruvka]
      calc (boruvkaLoop data naive n (initState data naive leafSize)).uf.numComponents ≤
          max 1 ((initState data naive leafSize).uf.numComponents / 2 ^ n) := hle
        _ = 1 := by rw [hinitc, this]; exact max_eq_left (Nat.zero_le 1)
    have hlo : 1 ≤ (runBoruvka data naive leafSize).uf.numComponents :=
      comps_pos hWFf.1 (by omega)
    omega
  have hcount := @boruvkaLoop_count data naive n (initState data naive leafSize)
    hWF0 hperm0
  have hlen : (runBoruvka data naive leafSize).edges.length = n - 1 := by
    have : (runBoruvka data naive leafSize).uf.numComponents +
        (runBoruvka data naive leafSize).edges.length = n + 0 := by
      rw [runBoruvka]
      rw [hcount, hinitc]
      rfl
    omega
  refine ⟨hWFf.1, hone, hlen, ?_, ?_⟩
  · exact @boruvkaLoop_edgesWF data naive n (initState data naive leafSize) hWF0 hperm0
      (fun e he => absurd he (List.not_mem_nil e))
  · intro i j hi hj
    have hfind : (runBoruvka data naive leafSize).uf.find i =
        (runBoruvka data naive leafSize).uf.find j := by
      have hcard := hone
      rw [UF.numComponents] at hcard
      have hmi : (runBoruvka data naive leafSize).uf.find i ∈
          (runBoruvka data naive leafSize).uf.rep.toFinset :=
        List.mem_toFinset.mpr (UF.mem_rep_of_lt hWFf.1 hi)
      have hmj : (runBoruvka data naive leafSize).uf.find j ∈
          (runBoruvka data naive leafSize).uf.rep.toFinset :=
        List.mem_toFinset.mpr (UF.mem_rep_of_lt hWFf.1 hj)
      exact Finset.card_le_one.mp (by omega) _ hmi _ hmj
    refine @boruvkaLoop_respects data naive n (initState data naive leafSize) hWF0 hperm0
      ?_ i j hi hj hfind
    intro i2 j2 hi2 hj2 hf2
    have hinit_uf : (initState data naive leafSize).uf = UF.init n := rfl
    rw [hinit_uf] at hf2
    have : i2 = j2 := by
      rw [UF.find_init hi2, UF.find_init hj2] at hf2
      exact hf2
    rw [this]
    exact Relation.EqvGen.refl j2

theorem getD_range {n i : ℕ} (h : i < n) : (List.range n).getD i 0 = i := by
  rw [getD_eq_getElem _ _ (by rw [List.length_range]; exact h)]
  simp

theorem mstEdges_ok (data : List Pt) (naive : Bool) (leafSize : ℕ)
    (h2 : 2 ≤ data.length) :
    mstEdges data naive leafSize =
      Except.ok (sortEdges (runBoruvka data naive leafSize).edges) := by
  unfold mstEdges
  rw [if_neg (by omega)]

theorem sortEdges_edgesWF {data : List Pt} {n : ℕ} {es : List IEdge}
    (h : EdgesWF data n es) : EdgesWF data n (sortEdges es) :=
  fun e he => h e (sortEdges_mem.mp he)

theorem sortEdges_edgesRel {es : List IEdge} {x y : ℕ} :
    edgesRel es x y → edgesRel (sortEdges es) x y :=
  edgesRel_mono (fun e he => sortEdges_mem.mpr he)

theorem emitResults_ranged {data : List Pt} {n : ℕ} {es : List IEdge}
    (hWF : EdgesWF data n es) :
    emitResults (List.range n) es = es.map (fun e =>
      (e.lesser, e.greater, Real.sqrt (e.dist : ℝ))) := by
  unfold emitResults
  refine List.map_congr_left (fun e he => ?_)
  obtain ⟨h1, h2, _⟩ := hWF e he
  rw [getD_range (by omega), getD_range h2]
  rw [min_eq_left (by omega), max_eq_right (by omega)]

theorem mst_run {data : List Pt} {D : ℕ}
    (hdim : ∀ p ∈ data, p.length = D) (h2 : 2 ≤ data.length)
    (naive : Bool) (leafSize : ℕ) :
    ∃ es, mstEdges data naive leafSize = Except.ok es ∧
      es.length = data.length - 1 ∧ EdgesWF data data.length es ∧
      (∀ i j, i < data.length → j < data.length →
        Relation.EqvGen (edgesRel es) i j) := by
  obtain ⟨hWF, hone, hlen, hEWF, hconn⟩ := runBoruvka_final hdim h2 naive leafSize
  refine ⟨_, mstEdges_ok data naive leafSize h2, ?_, sortEdges_edgesWF hEWF, ?_⟩
  · rw [sortEdges_length]
    exact hlen
  · intro i j hi hj
    exact (hconn i j hi hj).mono (fun a b h => sortEdges_edgesRel h)

theorem computeMST_of_mstEdges {data : List Pt} {naive : Bool} {leafSize : ℕ}
    {es : List IEdge} (hes : mstEdges data naive leafSize = Except.ok es) :
    computeMST data naive leafSize =
      Except.ok (emitResults (List.range data.length) es) := by
  rw [computeMST, computeMSTWith, hes]
  rfl

/-- Claim C1 (counterexample): on the tie dataset (0,0), (5,0), (3,4),
points 1 and 2 are both at squared distance 25 from point 0, and naive
mode and dual-tree mode (leaf size 2) return different final edges:
(0,2) versus (0,1).  The input has at least two points, so the spec's
unconditional mode-equivalence claim fails on the edge indices. -/
theorem C1_counterexample :
    2 ≤ tieData.length ∧
    mstEdges tieData true 2 = Except.ok [⟨1, 2, 20⟩, ⟨0, 1, 25⟩] ∧
    mstEdges tieData false 2 = Except.ok [⟨1, 2, 20⟩, ⟨0, 2, 25⟩] ∧
    mstEdges tieData false 2 ≠ mstEdges tieData true 2 :=
  ⟨by decide, rfl, rfl, by decide⟩

/-- Claim C1 (amended): when all pairwise squared distances of the
dimension-uniform input are distinct (no ties), naive mode and
dual-tree mode produce identical edge lists for every leaf size. -/
theorem C1_mode_equivalence {data : List Pt} {D : ℕ}
    (hdim : ∀ p ∈ data, p.length = D) (hdist : PairwiseDistinctDists data)
    (leafSize : ℕ) :
    mstEdges data false leafSize = mstEdges data true leafSize :=
  mstEdges_eq_modes hdim hdist leafSize

/-- Concrete instantiation of the amended C1 on the dataset 0, 1, 3 of
pairwise distinct distances. -/
theorem C1_witness :
    (∀ p ∈ gpData, p.length = 1) ∧ PairwiseDistinctDists gpData ∧
    mstEdges gpData false 1 = mstEdges gpData true 1 :=
  ⟨by decide, by decide, C1_mode_equivalence (D := 1) (by decide) (by decide) 1⟩

/-- Claim C2: for every dimension-uniform input with at least two
points, ComputeMST succeeds; the emitted matrix has exactly N-1
columns; each column carries the lesser index first, then the greater
index (in range), then the distance; the emitted index pairs connect
all N points into one component; and the emitted columns are exactly
the internal edges translated through the builder's `oldFromNew`
permutation (the identity permutation for this model's builder). -/
theorem C2_results_contract {data : List Pt} {D : ℕ}
    (hdim : ∀ p ∈ data, p.length = D) (h2 : 2 ≤ data.length)
    (naive : Bool) (leafSize : ℕ) :
    ∃ es res, mstEdges data naive leafSize = Except.ok es ∧
      computeMST data naive leafSize = Except.ok res ∧
      res = emitResults (List.range data.length) es ∧
      res.length = data.length - 1 ∧
      (∀ c ∈ res, c.1 < c.2.1 ∧ c.2.1 < data.length) ∧
      (∀ i j, i < data.length → j < data.length →
        Relation.EqvGen (edgeRel (res.map (fun c => (c.1, c.2.1)))) i j) := by
  obtain ⟨es, hes, hlen, hEWF, hconn⟩ := mst_run hdim h2 naive leafSize
  refine ⟨es, emitResults (List.range data.length) es, hes,
    computeMST_of_mstEdges hes, rfl, ?_, ?_, ?_⟩
  · rw [emitResults_ranged hEWF, List.length_map]
    exact hlen
  · intro c hc
    rw [emitResults_ranged hEWF] at hc
    obtain ⟨e, he, hmap⟩ := List.mem_map.mp hc
    obtain ⟨h1, h2e, _⟩ := hEWF e he
    rw [← hmap]
    exact ⟨h1, h2e⟩
  · intro i j hi hj
    refine (hconn i j hi hj).mono (fun a b hab => ?_)
    rw [emitResults_ranged hEWF, List.map_map]
    rcases hab with ⟨e, he, h1, h2e⟩ | ⟨e, he, h1, h2e⟩
    · exact Or.inl (List.mem_map.mpr ⟨e, he, by rw [← h1, ← h2e]; rfl⟩)
    · exact Or.inr (List.mem_map.mpr ⟨e, he, by rw [← h1, ← h2e]; rfl⟩)

/-- Concrete instantiation of C2 on the four-point dataset of spec
section 8 in dual-tree mode with leaf size 1. -/
theorem C2_witness :
    (∀ p ∈ scnData, p.length = 2) ∧ 2 ≤ scnData.length ∧
    (∃ es res, mstEdges scnData false 1 = Except.ok es ∧
      computeMST scnData false 1 = Except.ok res ∧
      res = emitResults (List.range scnData.length) es ∧
      res.length = scnData.length - 1 ∧
      (∀ c ∈ res, c.1 < c.2.1 ∧ c.2.1 < scnData.length) ∧
      (∀ i j, i < scnData.length → j < scnData.length →
        Relation.EqvGen (edgeRel (res.map (fun c => (c.1, c.2.1)))) i j)) :=
  ⟨by decide, by decide, C2_results_contract (D := 2) (by decide) (by decide) false 1⟩

/-- Claim C3: on every successful run each emitted column's distance is
the true (non-squared) Euclidean distance of its two endpoint indices
and the total distance is the sum of those true distances, while every
internal edge carries the squared Euclidean distance of its endpoints
(the internal comparison quantity). -/
theorem C3_true_distances {data : List Pt} {D : ℕ}
    (hdim : ∀ p ∈ data, p.length = D) (h2 : 2 ≤ data.length)
    (naive : Bool) (leafSize : ℕ) :
    ∃ es res, mstEdges data naive leafSize = Except.ok es ∧
      computeMST data naive leafSize = Except.ok res ∧
      (∀ e ∈ es, e.dist = sqDistQ (dataPt data e.lesser) (dataPt data e.greater)) ∧
      (∀ c ∈ res, c.2.2 = euclidDistR (dataPt data c.1) (dataPt data c.2.1)) ∧
      totalDistOf res =
        (res.map (fun c => euclidDistR (dataPt data c.1) (dataPt data c.2.1))).sum := by
  obtain ⟨es, hes, hlen, hEWF, hconn⟩ := mst_run hdim h2 naive leafSize
  have hcol : ∀ c ∈ emitResults (List.range data.length) es,
      c.2.2 = euclidDistR (dataPt data c.1) (dataPt data c.2.1) := by
    intro c hc
    rw [emitResults_ranged hEWF] at hc
    obtain ⟨e, he, hmap⟩ := List.mem_map.mp hc
    obtain ⟨_, _, hd⟩ := hEWF e he
    rw [← hmap]
    show Real.sqrt (e.dist : ℝ) = _
    rw [hd, euclidDistR_eq_sqrt]
  refine ⟨es, emitResults (List.range data.length) es, hes,
    computeMST_of_mstEdges hes, fun e he => (hEWF e he).2.2, hcol, ?_⟩
  rw [totalDistOf]
  congr 1
  exact List.map_congr_left hcol

/-- Concrete instantiation of C3 on the four-point dataset of spec
section 8 in naive mode. -/
theorem C3_witness :
    (∀ p ∈ scnData, p.length = 2) ∧ 2 ≤ scnData.length ∧
    (∃ es res, mstEdges scnData true 1 = Except.ok es ∧
      computeMST scnData true 1 = Except.ok res ∧
      (∀ e ∈ es, e.dist = sqDistQ (dataPt scnData e.lesser) (dataPt scnData e.greater)) ∧
      (∀ c ∈ res, c.2.2 = euclidDistR (dataPt scnData c.1) (dataPt scnData c.2.1)) ∧
      totalDistOf res =
        (res.map (fun c => euclidDistR (dataPt scnData c.1) (dataPt scnData c.2.1))).sum) :=
  ⟨by decide, by decide, C3_true_distances (D := 2) (by decide) (by decide) true 1⟩

/-- Claim C4: with fewer than two points the computation fails with the
InvalidInput condition, and a successful run only ever returns the full
spanning tree: at least two points and exactly N-1 emitted columns, so
no partial result is ever emitted. -/
theorem C4_degenerate {data : List Pt} {D : ℕ}
    (hdim : ∀ p ∈ data, p.length = D) (naive : Bool) (leafSize : ℕ) :
    (data.length < 2 →
      computeMST data naive leafSize = Except.error EmstErr.invalidInput) ∧
    (∀ res, computeMST data naive leafSize = Except.ok res →
      2 ≤ data.length ∧ res.length = data.length - 1) := by
  constructor
  · intro h
    rw [computeMST, computeMSTWith, mstEdges, if_pos h]
    rfl
  · intro res hres
    by_cases h : data.length < 2
    · rw [computeMST, computeMSTWith, mstEdges, if_pos h] at hres
      simp only [Except.map] at hres
      cases hres
    · push_neg at h
      obtain ⟨es, hes, hlen, hEWF, _⟩ := mst_run hdim h naive leafSize
      rw [computeMST_of_mstEdges hes] at hres
      injection hres with hres
      refine ⟨h, ?_⟩
      rw [← hres, emitResults, List.length_map]
      exact hlen

/-- Concrete instantiation of C4 on a one-point input, which is
rejected, and on which the success clause holds vacuously. -/
theorem C4_witness :
    (∀ p ∈ [[(0 : ℤ), 0]], p.length = 2) ∧
    (([[(0 : ℤ), 0]] : List Pt).length < 2 →
      computeMST [[(0 : ℤ), 0]] true 1 = Except.error EmstErr.invalidInput) ∧
    (∀ res, computeMST [[(0 : ℤ), 0]] true 1 = Except.ok res →
      2 ≤ ([[(0 : ℤ), 0]] : List Pt).length ∧
      res.length = ([[(0 : ℤ), 0]] : List Pt).length - 1) :=
  ⟨by decide, (C4_degenerate (D := 2) (by decide) true 1).1,
    (C4_degenerate (D := 2) (by decide) true 1).2⟩

/-- Claim C5: after the per-iteration Cleanup reset every node's
maxNeighborDistance bound dominates the true nearest cross-component
squared distance of every point in its subtree; the dual-tree recursion
preserves that domination; and starting from a tree whose bounds
dominate its children's (as Cleanup leaves it), the recursion only ever
tightens stored bounds, never loosens them. -/
theorem C5_bound_invariant (data : List Pt) (u : UF) (n : ℕ) (t : DTree) (fuel : ℕ) :
    BoundsValid data u n (cleanup u t) ∧
    (∀ Q R : DTree, (∀ r ∈ R.pts, r < n) → BoundsValid data u n Q →
      BoundsValid data u n (dtRec data u fuel Q R).1) ∧
    (∀ Q R : DTree, MaxInv Q → BoundsLE (dtRec data u fuel Q R).1 Q ∧
      MaxInv (dtRec data u fuel Q R).1) := by
  refine ⟨cleanup_boundsValid data u n t, ?_, ?_⟩
  · intro Q R hR hQ
    exact dtRec_boundsValid data u n fuel Q R hR hQ
  · intro Q R hM
    exact dtRec_tightens data u fuel Q R hM

/-- Claim C6: the union-find partition starts as N singleton components
with identity representatives, is only ever coarsened by the iteration
(two indices once equal under find stay equal after any further
rounds), and after the completed run exactly one component remains. -/
theorem C6_union_find {data : List Pt} {D : ℕ}
    (hdim : ∀ p ∈ data, p.length = D) (h2 : 2 ≤ data.length)
    (naive : Bool) (leafSize : ℕ) :
    ((initState data naive leafSize).uf.numComponents = data.length ∧
     ∀ i < data.length, (initState data naive leafSize).uf.find i = i) ∧
    (∀ fuel (st : AlgState), st.uf.WF data.length →
      st.tree.pts.Perm (List.range data.length) →
      ∀ i j, i < data.length → j < data.length → st.uf.find i = st.uf.find j →
      (boruvkaLoop data naive fuel st).uf.find i =
        (boruvkaLoop data naive fuel st).uf.find j) ∧
    (runBoruvka data naive leafSize).uf.numComponents = 1 := by
  refine ⟨⟨UF.numComponents_init data.length, fun i hi => UF.find_init hi⟩, ?_, ?_⟩
  · intro fuel st h1 hp i j hi hj h
    exact boruvkaLoop_mono fuel st h1 hp i j hi hj h
  · exact (runBoruvka_final hdim h2 naive leafSize).2.1

/-- Concrete instantiation of C6 on the four-point dataset of spec
section 8 in dual-tree mode with leaf size 1. -/
theorem C6_witness :
    ((initState scnData false 1).uf.numComponents = scnData.length ∧
     ∀ i < scnData.length, (initState scnData false 1).uf.find i = i) ∧
    (∀ fuel (st : AlgState), st.uf.WF scnData.length →
      st.tree.pts.Perm (List.range scnData.length) →
      ∀ i j, i < scnData.length → j < scnData.length → st.uf.find i = st.uf.find j →
      (boruvkaLoop scnData false fuel st).uf.find i =
        (boruvkaLoop scnData false fuel st).uf.find j) ∧
    (runBoruvka scnData false 1).uf.numComponents = 1 :=
  C6_union_find (D := 2) (by decide) (by decide) false 1

/-- Claim C7: in any well-formed round state with at least two
components, the round's search finds, for every component, a candidate
that is a cheapest edge leaving it (correct endpoints, genuine squared
distance, minimal among all cross pairs leaving the component), the
merge connects that candidate's endpoints, and the component count at
least halves; consequently the iteration loop started from the initial
state reaches a single component within ceil(log2 N) rounds. -/
theorem C7_round_progress {data : List Pt} {D : ℕ}
    (hdim : ∀ p ∈ data, p.length = D) (h2 : 2 ≤ data.length)
    (naive : Bool) (leafSize : ℕ) :
    (∀ st : AlgState, st.uf.WF data.length →
      st.tree.pts.Perm (List.range data.length) → 2 ≤ st.uf.numComponents →
      (∀ c ∈ st.uf.rep.toFinset, ∃ cand : Cand,
        (roundCands data naive st).getD c none = some cand ∧
        st.uf.find cand.inPoint = c ∧
        st.uf.find cand.inPoint ≠ st.uf.find cand.outPoint ∧
        cand.dist = sqDistQ (dataPt data cand.inPoint) (dataPt data cand.outPoint) ∧
        (∀ q r, q < data.length → r < data.length → st.uf.find q = c →
          st.uf.find r ≠ c →
          cand.dist ≤ sqDistQ (dataPt data q) (dataPt data r)) ∧
        (boruvkaRound data naive st).uf.find cand.inPoint =
          (boruvkaRound data naive st).uf.find cand.outPoint) ∧
      2 * (boruvkaRound data naive st).uf.numComponents ≤ st.uf.numComponents) ∧
    (boruvkaLoop data naive (Nat.clog 2 data.length)
        (initState data naive leafSize)).uf.numComponents = 1 := by
  have hdp := dataPt_length hdim
  constructor
  · intro st hWF hperm hcomp
    constructor
    · intro c hc
      obtain ⟨cand, hcand, hin, hcr, hinlt, houtlt, hdisteq, hcheap⟩ :=
        roundCands_best hdp hWF hperm hcomp c hc
      refine ⟨cand, hcand, hin, hcr, hdisteq, hcheap, ?_⟩
      have hran : ∀ c2, ∀ cand2 : Cand,
          (roundCands data naive st).getD c2 none = some cand2 →
          cand2.inPoint < data.length ∧ cand2.outPoint < data.length :=
        fun c2 cand2 hc2 =>
          ⟨((roundCands_candsWF hWF hperm).2 c2 cand2 hc2).2.2.2.1,
           ((roundCands_candsWF hWF hperm).2 c2 cand2 hc2).2.2.2.2⟩
      have hcmem : c ∈ List.range data.length :=
        List.mem_range.mpr (mem_toFinset_lt hWF hc)
      have hcn := mergeFold_connects hran (List.range data.length)
        (st.uf, st.edges) hWF c hcmem cand hcand
      rw [boruvkaRound_eq]
      exact hcn
    · exact boruvkaRound_halves hdp hWF hperm hcomp
  · have hWF0 : (initState data naive leafSize).uf.WF data.length := UF.WF_init _
    have hperm0 := initState_perm data naive leafSize
    have hle := @boruvkaLoop_comps_le data naive D hdp (Nat.clog 2 data.length)
      (initState data naive leafSize) hWF0 hperm0
    have hinitc : (initState data naive leafSize).uf.numComponents = data.length :=
      UF.numComponents_init _
    have hpow : data.length ≤ 2 ^ Nat.clog 2 data.length :=
      Nat.le_pow_clog (by omega) _
    have hdiv : data.length / 2 ^ Nat.clog 2 data.length ≤ 1 :=
      Nat.div_le_of_le_mul (by omega)
    have hWFf := @boruvkaLoop_WF data naive (Nat.clog 2 data.length)
      (initState data naive leafSize) hWF0 hperm0
    have hlo := comps_pos hWFf.1 (by omega)
    rw [hinitc] at hle
    omega

/-- Concrete instantiation of C7 on the dataset 0, 1, 3 in naive
mode. -/
theorem C7_witness :
    (∀ p ∈ gpData, p.length = 1) ∧ 2 ≤ gpData.length ∧
    ((∀ st : AlgState, st.uf.WF gpData.length →
      st.tree.pts.Perm (List.range gpData.length) → 2 ≤ st.uf.numComponents →
      (∀ c ∈ st.uf.rep.toFinset, ∃ cand : Cand,
        (roundCands gpData true st).getD c none = some cand ∧
        st.uf.find cand.inPoint = c ∧
        st.uf.find cand.inPoint ≠ st.uf.find cand.outPoint ∧
        cand.dist = sqDistQ (dataPt gpData cand.inPoint) (dataPt gpData cand.outPoint) ∧
        (∀ q r, q < gpData.length → r < gpData.length → st.uf.find q = c →
          st.uf.find r ≠ c →
          cand.dist ≤ sqDistQ (dataPt gpData q) (dataPt gpData r)) ∧
        (boruvkaRound gpData true st).uf.find cand.inPoint =
          (boruvkaRound gpData true st).uf.find cand.outPoint) ∧
      2 * (boruvkaRound gpData true st).uf.numComponents ≤ st.uf.numComponents) ∧
    (boruvkaLoop gpData true (Nat.clog 2 gpData.length)
        (initState gpData true 1)).uf.numComponents = 1) :=
  ⟨by decide, by decide, C7_round_progress (D := 1) (by decide) (by decide) true 1⟩

/-- Claim C8: building in non-naive mode with leaf size N (all points
in one leaf) yields results identical to the explicit naive flag, both
for the internal edge list and for the emitted matrix, whatever leaf
size accompanies the naive flag (naive mode ignores the tree). -/
theorem C8_full_leaf_naive (data : List Pt) (leafSize : ℕ) :
    mstEdges data false data.length = mstEdges data true leafSize ∧
    computeMST data false data.length = computeMST data true leafSize := by
  refine ⟨mstEdges_leafSize_full data leafSize, ?_⟩
  rw [computeMST, computeMST, computeMSTWith, computeMSTWith,
    mstEdges_leafSize_full data leafSize]

/-- Claim C9 (counterexample): on the four points (0,0), (1,0), (0,1),
(10,10) the third MST edge joins point 1 to point 3 at squared distance
181, and no pair of the input is at squared distance 162 at all; the
true third distance sqrt(181) exceeds 13.4 while sqrt(162) (the spec's
claimed ~12.73) is below 12.8, so the spec's third edge distance and
total (~14.73) are both wrong. -/
theorem C9_counterexample :
    mstEdges scnData true 1 = Except.ok [⟨0, 1, 1⟩, ⟨0, 2, 1⟩, ⟨1, 3, 181⟩] ∧
    (∀ i ∈ List.range 4, ∀ j ∈ List.range 4,
      sqDistQ (dataPt scnData i) (dataPt scnData j) ≠ 162) ∧
    euclidDistR (dataPt scnData 1) (dataPt scnData 3) = Real.sqrt 181 ∧
    Real.sqrt 162 < 12.8 ∧ (13.4 : ℝ) < Real.sqrt 181 := by
  have hd : sqDistQ (dataPt scnData 1) (dataPt scnData 3) = 181 := by decide
  refine ⟨rfl, by decide, ?_, ?_, ?_⟩
  · rw [euclidDistR_eq_sqrt, hd]
    norm_num
  · rw [Real.sqrt_lt' (by norm_num)]
    norm_num
  · rw [Real.lt_sqrt (by norm_num)]
    norm_num

/-- Claim C9 (amended): on the four points (0,0), (1,0), (0,1), (10,10)
the engine emits edges (0,1) and (0,2) at true distance 1 and a third
edge joining component 0,1,2 to point 3 at true distance sqrt(181)
(about 13.45), for a total distance 2 + sqrt(181) strictly between
15.45 and 15.46. -/
theorem C9_scenario :
    computeMST scnData true 1 = Except.ok
      [(0, 1, Real.sqrt 1), (0, 2, Real.sqrt 1), (1, 3, Real.sqrt 181)] ∧
    Real.sqrt 1 = 1 ∧
    totalDistOf [((0 : ℕ), (1 : ℕ), Real.sqrt 1), (0, 2, Real.sqrt 1),
      (1, 3, Real.sqrt 181)] = 2 + Real.sqrt 181 ∧
    (15.45 : ℝ) < 2 + Real.sqrt 181 ∧ (2 : ℝ) + Real.sqrt 181 < 15.46 := by
  have hm : mstEdges scnData true 1 =
      Except.ok [⟨0, 1, 1⟩, ⟨0, 2, 1⟩, ⟨1, 3, 181⟩] := rfl
  have h5 : (13.45 : ℝ) < Real.sqrt 181 := by
    rw [Real.lt_sqrt (by norm_num)]
    norm_num
  have h6 : Real.sqrt 181 < 13.46 := by
    rw [Real.sqrt_lt' (by norm_num)]
    norm_num
  refine ⟨?_, Real.sqrt_one, ?_, by linarith, by linarith⟩
  · rw [computeMST_of_mstEdges hm]
    unfold emitResults
    simp only [List.map_cons, List.map_nil]
    rw [getD_range (show 0 < scnData.length by decide),
      getD_range (show 1 < scnData.length by decide),
      getD_range (show 2 < scnData.length by decide),
      getD_range (show 3 < scnData.length by decide)]
    norm_num
  · rw [totalDistOf]
    simp only [List.map_cons, List.map_nil, List.sum_cons, List.sum_nil]
    rw [Real.sqrt_one]
    ring

/-- Claim C10: a successful run's internal edge list is pairwise
nondecreasing in distance (the order std::sort produces from the
SortEdgesHelper strict comparator), and therefore every emitted matrix,
through any index translation, carries nondecreasing third-row
distances. -/
theorem C10_sorted_output {data : List Pt} {naive : Bool} {leafSize : ℕ}
    {es : List IEdge} (hes : mstEdges data naive leafSize = Except.ok es) :
    List.Pairwise edgeDistLE es ∧
    (∀ ofn : List ℕ, List.Pairwise (fun a b : ℕ × ℕ × ℝ => a.2.2 ≤ b.2.2)
      (emitResults ofn es)) ∧
    (∀ res, computeMST data naive leafSize = Except.ok res →
      List.Pairwise (fun a b : ℕ × ℕ × ℝ => a.2.2 ≤ b.2.2) res) := by
  have hsort : List.Pairwise edgeDistLE es := by
    unfold mstEdges at hes
    split at hes
    · cases hes
    · injection hes with hes
      rw [← hes]
      exact sortEdges_sorted _
  have hemit : ∀ ofn : List ℕ,
      List.Pairwise (fun a b : ℕ × ℕ × ℝ => a.2.2 ≤ b.2.2) (emitResults ofn es) := by
    intro ofn
    unfold emitResults
    refine List.Pairwise.map _ (fun a b hab => ?_) hsort
    show Real.sqrt (a.dist : ℝ) ≤ Real.sqrt (b.dist : ℝ)
    exact Real.sqrt_le_sqrt (by exact_mod_cast hab)
  refine ⟨hsort, hemit, ?_⟩
  intro res hres
  rw [computeMST_of_mstEdges hes] at hres
  injection hres with hres
  rw [← hres]
  exact hemit _

/-- Concrete instantiation of C10 on the four-point dataset of spec
section 8 in naive mode. -/
theorem C10_witness :
    List.Pairwise edgeDistLE [⟨0, 1, (1 : ℤ)⟩, ⟨0, 2, 1⟩, ⟨1, 3, 181⟩] ∧
    (∀ ofn : List ℕ, List.Pairwise (fun a b : ℕ × ℕ × ℝ => a.2.2 ≤ b.2.2)
      (emitResults ofn [⟨0, 1, (1 : ℤ)⟩, ⟨0, 2, 1⟩, ⟨1, 3, 181⟩])) ∧
    (∀ res, computeMST scnData true 1 = Except.ok res →
      List.Pairwise (fun a b : ℕ × ℕ × ℝ => a.2.2 ≤ b.2.2) res) :=
  @C10_sorted_output scnData true 1 [⟨0, 1, 1⟩, ⟨0, 2, 1⟩, ⟨1, 3, 181⟩] rfl
